import Mathlib

/-!
Verification of the SVG-to-catalogue banner generator (`server.js`).

The development shallowly embeds the generator engine `generateBanners` and its
helpers: the document sizing pass (regex extraction of width/height/viewBox and
attribute rewriting), the per-row mutation pipeline run inside the browser page
(element dispatch by tag, placeholder token replacement, group mutation,
shape-to-image promotion, overflow truncation) and the artifact bookkeeping
(file naming, overwrite-on-collision file system, generated-file list).

Modelling conventions:
- JavaScript strings are `List Char` (`Str`).
- JavaScript numbers are exact fractions `Fr` (numerator/denominator pairs with
  integer cross-multiplication arithmetic); IEEE-754 rounding is out of scope,
  all concrete values used in theorems are exactly representable.
- The DOM is a tree of `XNode`s.  `innerHTML` reads serialize the child list,
  `innerHTML` writes re-parse the assigned string (`parseNodesF`), `textContent`
  writes replace the child list by a single text node, as in a browser.
  Entity escaping is not modelled; the theorems only involve text without the
  characters `&`, `<`, `>` inside text nodes, where serialization is literal.
- Bounding-box measurement (`getBBox`) and therefore text metrics are supplied
  by an oracle `bbox : XNode → Option BBox`; `none` models a thrown DOM
  exception ("element not rendered").
- The two placeholder regexes are modelled by dedicated scanners.  The specific
  regex interpolates the CSV header unescaped; the scanner implements its
  semantics for headers that are plain names (letters, digits, underscore),
  which contain no regex metacharacters and no whitespace, so greedy
  whitespace matching coincides with full backtracking.  JavaScript `\s` is
  modelled by the ASCII whitespace characters (space, tab, LF, CR).
- `String.prototype.replace` with a string replacement processes dollar
  escapes in the replacement (`GetSubstitution`); both placeholder regexes
  have no capture groups, so the special sequences are the doubled dollar,
  dollar-ampersand and the dollar forms for the context before and after the
  match, every other
  dollar being literal.  The scanners (`replaceSpec`, `replaceGen`) thread the
  consumed prefix so that each match's context is available to the expansion.
-/

namespace SvgCat

abbrev Str := List Char

/-- Exact fraction used in place of JavaScript numbers: value is `n / d`.
All fractions built by the model have positive denominators (powers of ten from
`parseFloat`, products thereof); no normalisation is performed so that all
arithmetic reduces in the kernel. -/
structure Fr where
  n : Int
  d : Int
deriving DecidableEq, Repr

/-- Embeds an integer as a fraction. -/
def Fr.ofInt (k : Int) : Fr := ⟨k, 1⟩

/-- Multiplication of a fraction by an integer (used for the ×3 scale factor). -/
def Fr.mulInt (a : Fr) (k : Int) : Fr := ⟨a.n * k, a.d⟩

/-- Subtraction by cross multiplication. -/
def Fr.sub (a b : Fr) : Fr := ⟨a.n * b.d - b.n * a.d, a.d * b.d⟩

/-- Strict greater-than by cross multiplication (denominators positive). -/
def Fr.gtB (a b : Fr) : Bool := decide (b.n * a.d < a.n * b.d)

/-- Less-or-equal by cross multiplication (denominators positive). -/
def Fr.leB (a b : Fr) : Bool := decide (a.n * b.d ≤ b.n * a.d)

/-- Equality test of values (not representations). -/
def Fr.eqB (a b : Fr) : Bool := decide (a.n * b.d = b.n * a.d)

/-- JavaScript `Math.round` for non-negative values: ⌊x + 1/2⌋, computed as
`fdiv (2n + d) (2d)`. -/
def Fr.jsRound (a : Fr) : Int := Int.fdiv (2 * a.n + a.d) (2 * a.d)

/-- ASCII whitespace model of the JavaScript regex class `\s`. -/
def isWsChar (c : Char) : Bool := c = ' ' || c = '\t' || c = '\n' || c = '\r'

/-- Character class `[\d\.]` of the size-extraction regexes. -/
def isDigitDot (c : Char) : Bool := c.isDigit || c = '.'

/-- Character class `[\d\.\s]` of the viewBox regex. -/
def isVbChar (c : Char) : Bool := isDigitDot c || isWsChar c

/-- ASCII lower-casing, modelling `toLowerCase` on the ASCII tag and value
strings that occur in the engine. -/
def asciiLower (c : Char) : Char :=
  if 65 ≤ c.toNat && c.toNat ≤ 90 then Char.ofNat (c.toNat + 32) else c

/-- Lower-cases a string (ASCII). -/
def lowerStr (s : Str) : Str := s.map asciiLower

/-- Literal substring test, modelling `String.prototype.includes`. -/
def containsSub (pat : Str) : Str → Bool
  | [] => pat.isPrefixOf []
  | c :: rest => pat.isPrefixOf (c :: rest) || containsSub pat rest

/-- Replaces the first occurrence of the literal substring `pat` by `repl`,
modelling `String.prototype.replace` with a string pattern. -/
def replaceFirstSub (pat repl : Str) : Str → Str
  | [] => []
  | c :: rest =>
      if pat.isPrefixOf (c :: rest) then repl ++ (c :: rest).drop pat.length
      else c :: replaceFirstSub pat repl rest

/-- Tries to match the column-specific placeholder regex (two open braces,
optional whitespace, the CSV header spliced literally, optional whitespace,
two close braces) at the head of the input, returning the rest of the input
after the match.  Whitespace is consumed greedily, which agrees with
backtracking semantics for plain-name headers. -/
def matchSpecAt (hdr : Str) (l : Str) : Option Str :=
  match l with
  | c1 :: c2 :: rest =>
      if c1 = '{' && c2 = '{' then
        if hdr.isPrefixOf (rest.dropWhile isWsChar) then
          match ((rest.dropWhile isWsChar).drop hdr.length).dropWhile isWsChar with
          | d1 :: d2 :: r3 => if d1 = '}' && d2 = '}' then some r3 else none
          | _ => none
        else none
      else none
  | _ => none

/-- Tries to match the generic placeholder regex at the head of the input.  The
pattern is two open braces, a non-empty run of characters other than a closing
brace, then two closing braces; backtracking adds nothing because the run
cannot cross a closing brace. -/
def matchGenAt (l : Str) : Option Str :=
  match l with
  | c1 :: c2 :: rest =>
      if c1 = '{' && c2 = '{' then
        let content := rest.takeWhile (fun c => !(c = '}' : Bool))
        if content.isEmpty then none
        else
          match rest.drop content.length with
          | d1 :: d2 :: r2 => if d1 = '}' && d2 = '}' then some r2 else none
          | _ => none
      else none
  | _ => none

/-- Truthiness of `s.match(specificRegex)`: does the specific placeholder
occur anywhere in the string? -/
def hasSpec (hdr : Str) : Str → Bool
  | [] => false
  | c :: rest => (matchSpecAt hdr (c :: rest)).isSome || hasSpec hdr rest

/-- Truthiness of `s.match(genericRegex)`. -/
def hasGen : Str → Bool
  | [] => false
  | c :: rest => (matchGenAt (c :: rest)).isSome || hasGen rest

/-- `GetSubstitution` for a replacement string against a match of a regex with
no capture groups, modelling the dollar-escape processing that
`String.prototype.replace` applies to a string replacement: a doubled dollar
inserts a literal dollar, dollar-ampersand the matched substring,
dollar-backquote the part of the subject before the match, dollar-quote the
part after it.  Both placeholder regexes of the source have no capture groups
and no named groups, so every other occurrence of a dollar (including the
dollar-digit and dollar-angle forms) is copied literally. -/
def expandRepl (matched before after : Str) : Str → Str
  | [] => []
  | [c] => [c]
  | c :: d :: rest =>
      if c = '$' then
        if d = '$' then '$' :: expandRepl matched before after rest
        else if d = '&' then matched ++ expandRepl matched before after rest
        else if d = Char.ofNat 96 then
          before ++ expandRepl matched before after rest
        else if d = Char.ofNat 39 then
          after ++ expandRepl matched before after rest
        else '$' :: d :: expandRepl matched before after rest
      else c :: expandRepl matched before after (d :: rest)

/-- Fuelled global replacement of the specific placeholder by `val`, modelling
`s.replace(specificRegex, value)` (global flag, replacement not rescanned,
dollar escapes in the replacement processed by `GetSubstitution`).  `seen`
accumulates the already scanned part of the subject in reverse, so that the
dollar-backquote and dollar-quote contexts of each match are available.  The
fuel is an upper bound on the scan position count; `replaceSpec` supplies
`l.length`, which suffices because every step consumes at least one input
character. -/
def replaceSpecF (hdr val : Str) : Nat → Str → Str → Str
  | 0, _, l => l
  | _ + 1, _, [] => []
  | fuel + 1, seen, c :: rest =>
      match matchSpecAt hdr (c :: rest) with
      | some r3 =>
          expandRepl ((c :: rest).take ((c :: rest).length - r3.length))
              seen.reverse r3 val
            ++ replaceSpecF hdr val fuel
              (((c :: rest).take ((c :: rest).length - r3.length)).reverse ++ seen) r3
      | none => c :: replaceSpecF hdr val fuel (c :: seen) rest

/-- Global replacement of the specific placeholder. -/
def replaceSpec (hdr val : Str) (l : Str) : Str := replaceSpecF hdr val l.length [] l

/-- The specific-placeholder scanner specialised to a replacement string
without a dollar sign, for which the `GetSubstitution` expansion is the
identity and no match context needs threading.  A stepping stone used by the
proofs below, where it is shown to agree with `replaceSpec` on dollar-free
replacement values. -/
def replaceSpecLitF (hdr val : Str) : Nat → Str → Str
  | 0, l => l
  | _ + 1, [] => []
  | fuel + 1, c :: rest =>
      match matchSpecAt hdr (c :: rest) with
      | some r3 => val ++ replaceSpecLitF hdr val fuel r3
      | none => c :: replaceSpecLitF hdr val fuel rest

/-- Unfuelled form of `replaceSpecLitF`. -/
def replaceSpecLit (hdr val : Str) (l : Str) : Str := replaceSpecLitF hdr val l.length l

/-- Fuelled global replacement of the generic placeholder, modelling
`s.replace(genericRegex, value)` with the same `GetSubstitution` processing
of the replacement string. -/
def replaceGenF (val : Str) : Nat → Str → Str → Str
  | 0, _, l => l
  | _ + 1, _, [] => []
  | fuel + 1, seen, c :: rest =>
      match matchGenAt (c :: rest) with
      | some r2 =>
          expandRepl ((c :: rest).take ((c :: rest).length - r2.length))
              seen.reverse r2 val
            ++ replaceGenF val fuel
              (((c :: rest).take ((c :: rest).length - r2.length)).reverse ++ seen) r2
      | none => c :: replaceGenF val fuel (c :: seen) rest

/-- Global replacement of the generic placeholder. -/
def replaceGen (val : Str) (l : Str) : Str := replaceGenF val l.length [] l

/-- Numeric value of a digit string (most significant first). -/
def natOfDigits (s : Str) : Nat := s.foldl (fun acc c => acc * 10 + (c.toNat - 48)) 0

/-- JavaScript `parseFloat` restricted to the inputs the engine feeds it —
optional leading whitespace and sign, then decimal digits with at most one
point, ignoring any trailing garbage; `none` models `NaN` (no digits at all).
Exponent notation is not modelled (never produced by the size regex captures
or by attribute values considered in the theorems). -/
def parseFloatQ (s : Str) : Option Fr :=
  let s1 := s.dropWhile isWsChar
  let signed : Int × Str :=
    match s1 with
    | '-' :: r => (-1, r)
    | '+' :: r => (1, r)
    | r => (1, r)
  let intPart := signed.2.takeWhile Char.isDigit
  let s3 := signed.2.drop intPart.length
  let fracPart :=
    match s3 with
    | '.' :: r => r.takeWhile Char.isDigit
    | _ => []
  if intPart.isEmpty && fracPart.isEmpty then none
  else some ⟨signed.1 * (natOfDigits (intPart ++ fracPart) : Int), ((10 : Int) ^ fracPart.length)⟩

/-- Decimal digits of a natural number (fuelled so that it reduces). -/
def natToStrF : Nat → Nat → Str
  | 0, _ => []
  | fuel + 1, n =>
      if n < 10 then [Char.ofNat (48 + n)]
      else natToStrF fuel (n / 10) ++ [Char.ofNat (48 + n % 10)]

/-- Decimal representation of a natural number. -/
def natToStr (n : Nat) : Str := natToStrF (n + 1) n

/-- Decimal representation of an integer, as interpolated into the rewritten
size attributes. -/
def intToStr (k : Int) : Str :=
  match k with
  | Int.ofNat n => natToStr n
  | Int.negSucc n => '-' :: natToStr (n + 1)

/-- Scans for the first match of a capture regex of the form
`key([\d\.]+)"` — used with keys `width="` and `height="` to model
`/width="([\d\.]+)"/` and `/height="([\d\.]+)"/` — returning the captured
digit-and-dot run.  On a failed match attempt the scan advances one character,
as the JavaScript regex engine does. -/
def findNumCapture (key : Str) : Str → Option Str
  | [] => none
  | c :: rest =>
      if key.isPrefixOf (c :: rest) then
        let afterKey := (c :: rest).drop key.length
        let cap := afterKey.takeWhile isDigitDot
        if !cap.isEmpty && (afterKey.drop cap.length).head? = some '"' then some cap
        else findNumCapture key rest
      else findNumCapture key rest

/-- Decomposition step of the viewBox regex
`/viewBox="[\d\.\s]+ ([\d\.]+) ([\d\.]+)"/` applied to the maximal
digit-dot-whitespace run following the attribute opener.  The regex matches
exactly when the run factors as `A ++ " " ++ B ++ " " ++ C` with `A` non-empty
and `B`, `C` non-empty digit-dot runs; maximality of the runs makes the
factorisation unique, so greedy backtracking yields `B`, `C` as the last two
space-separated numeric tokens. -/
def vbDecompose (run : Str) : Option (Str × Str) :=
  let rev := run.reverse
  let c := rev.takeWhile isDigitDot
  if c.isEmpty then none
  else
    match rev.drop c.length with
    | ' ' :: rev2 =>
        let b := rev2.takeWhile isDigitDot
        if b.isEmpty then none
        else
          match rev2.drop b.length with
          | ' ' :: rev3 => if rev3.isEmpty then none else some (b.reverse, c.reverse)
          | _ => none
    | _ => none

/-- Key strings of the three size regexes. -/
def widthKey : Str := "width=\"".toList

/-- Key of the height regex. -/
def heightKey : Str := "height=\"".toList

/-- Key of the viewBox regex. -/
def vbKey : Str := "viewBox=\"".toList

/-- Scans for the first match of the viewBox regex, returning the two captured
components (third and fourth numbers of a well-formed viewBox). -/
def findViewBoxCaps : Str → Option (Str × Str)
  | [] => none
  | c :: rest =>
      if vbKey.isPrefixOf (c :: rest) then
        let after := (c :: rest).drop vbKey.length
        let run := after.takeWhile isVbChar
        if (after.drop run.length).head? = some '"' then
          match vbDecompose run with
          | some caps => some caps
          | none => findViewBoxCaps rest
        else findViewBoxCaps rest
      else findViewBoxCaps rest

/-- Replaces the first occurrence of `key[^"]+"` by `key ++ newVal ++ '"'`,
modelling the rewrites
`svgTemplate.replace(/width="[^"]+"/, ...)` and the height analogue. -/
def replaceAttrPat (key newVal : Str) : Str → Str
  | [] => []
  | c :: rest =>
      if key.isPrefixOf (c :: rest) then
        let after := (c :: rest).drop key.length
        let body := after.takeWhile (fun ch => !(ch = '"' : Bool))
        if !body.isEmpty && (after.drop body.length).head? = some '"' then
          key ++ newVal ++ '"' :: after.drop (body.length + 1)
        else c :: replaceAttrPat key newVal rest
      else c :: replaceAttrPat key newVal rest

/-- Fallback of the sizing pass when the width/height pair is unavailable:
the two viewBox captures when that regex matches, else the defaults
800 × 400. -/
def vbOrDefault (raw : Str) : Option Fr × Option Fr :=
  match findViewBoxCaps raw with
  | some caps => (parseFloatQ caps.1, parseFloatQ caps.2)
  | none => (some (Fr.ofInt 800), some (Fr.ofInt 400))

/-- Width and height selected by the sizing pass (lines 27–39): explicit
`width`/`height` attributes when both regexes match, else the two viewBox
captures, else the defaults 800 × 400.  `none` components model `NaN` from
`parseFloat`. -/
def pickedSize (raw : Str) : Option Fr × Option Fr :=
  match findNumCapture widthKey raw, findNumCapture heightKey raw with
  | some cw, some ch => (parseFloatQ cw, parseFloatQ ch)
  | some _, none => vbOrDefault raw
  | none, some _ => vbOrDefault raw
  | none, none => vbOrDefault raw

/-- Final raster dimensions: `Math.round(width * 3)` per axis (lines 41–43). -/
def finalDims (raw : Str) : Option Int × Option Int :=
  ((pickedSize raw).1.map (fun q => (q.mulInt 3).jsRound),
   (pickedSize raw).2.map (fun q => (q.mulInt 3).jsRound))

/-- Interpolation of a final dimension into the rewritten attribute; a missing
value prints as `NaN` as in JavaScript. -/
def dimStr (d : Option Int) : Str :=
  match d with
  | some k => intToStr k
  | none => "NaN".toList

/-- Literal `</style>`. -/
def styleClose : Str := "</style>".toList

/-- Font-CSS injection (lines 49–59): append to an existing style block, else
prepend a new one.  The CSS text itself carries no decision logic and is a
parameter. -/
def injectFont (fontCss : Str) (tmpl : Str) : Str :=
  if containsSub styleClose tmpl then
    replaceFirstSub styleClose (fontCss ++ styleClose) tmpl
  else ("<style>".toList ++ fontCss ++ styleClose) ++ tmpl

/-- Full sizing pass (lines 27–59): compute final dimensions, rewrite the first
`width="…"` and `height="…"` occurrences to them, then inject the font CSS.
The result is the template string handed unchanged to every row. -/
def sizedTemplate (fontCss raw : Str) : Str :=
  let dims := finalDims raw
  let t1 := replaceAttrPat widthKey (dimStr dims.1) raw
  let t2 := replaceAttrPat heightKey (dimStr dims.2) t1
  injectFont fontCss t2

/-- Attribute list of a DOM element, in document order. -/
abbrev Attrs := List (Str × Str)

/-- DOM node: an element with tag, attributes and children, or a text node. -/
inductive XNode where
  | elem : Str → Attrs → List XNode → XNode
  | txt : Str → XNode
deriving Repr

/-- Tag of a node (text nodes yield the empty string). -/
def tagOfN : XNode → Str
  | XNode.elem t _ _ => t
  | XNode.txt _ => []

/-- Attributes of a node. -/
def attrsOfN : XNode → Attrs
  | XNode.elem _ a _ => a
  | XNode.txt _ => []

/-- Children of a node. -/
def kidsOfN : XNode → List XNode
  | XNode.elem _ _ k => k
  | XNode.txt _ => []

/-- DOM `getAttribute`: value of the binding of the name (attribute names are
unique on a DOM element; the first binding decides). -/
def getAttr : Attrs → Str → Option Str
  | [], _ => none
  | p :: rest, k => if p.1 = k then some p.2 else getAttr rest k

/-- DOM `hasAttribute`. -/
def hasAttr (a : Attrs) (k : Str) : Bool := (getAttr a k).isSome

/-- DOM `setAttribute`: overwrite the existing binding in place, else append. -/
def setAttr : Attrs → Str → Str → Attrs
  | [], k, v => [(k, v)]
  | p :: rest, k, v =>
      if p.1 = k then (p.1, v) :: rest else p :: setAttr rest k v

/-- Attribute name `id`. -/
def idKey : Str := "id".toList

mutual
/-- Search step of `document.getElementById` on one node: the node itself
first, then its subtree, in document (pre-)order. -/
def getByIdN (i : Str) : XNode → Option XNode
  | XNode.txt _ => none
  | XNode.elem t a kids =>
      if getAttr a idKey = some i then some (XNode.elem t a kids)
      else getByIdF i kids
/-- Search step of `document.getElementById` on a forest. -/
def getByIdF (i : Str) : List XNode → Option XNode
  | [] => none
  | n :: rest =>
      match getByIdN i n with
      | some r => some r
      | none => getByIdF i rest
end

mutual
/-- Replacement of the first element whose `id` attribute is `i` (the one
`getElementById` returns) by `new`, leaving everything else in place; the flag
reports whether the replacement happened.  This models both in-place element
mutation and `parentNode.replaceChild` at the matched position. -/
def replIdN (i : Str) (new : XNode) : XNode → XNode × Bool
  | XNode.txt s => (XNode.txt s, false)
  | XNode.elem t a kids =>
      if getAttr a idKey = some i then (new, true)
      else
        let r := replIdF i new kids
        (XNode.elem t a r.1, r.2)
/-- Forest version of `replIdN`; stops after the first replacement. -/
def replIdF (i : Str) (new : XNode) : List XNode → List XNode × Bool
  | [] => ([], false)
  | n :: rest =>
      let rn := replIdN i new n
      if rn.2 then (rn.1 :: rest, true)
      else
        let rr := replIdF i new rest
        (n :: rr.1, rr.2)
end

/-- Document-level replacement by id. -/
def replaceById (doc : List XNode) (i : Str) (new : XNode) : List XNode :=
  (replIdF i new doc).1

mutual
/-- DOM `textContent` read on a node. -/
def textContentN : XNode → Str
  | XNode.txt s => s
  | XNode.elem _ _ kids => textContentF kids
/-- DOM `textContent` read on a forest. -/
def textContentF : List XNode → Str
  | [] => []
  | n :: rest => textContentN n ++ textContentF rest
end

/-- Attribute serialization for `innerHTML` reads. -/
def serializeAttrs : Attrs → Str
  | [] => []
  | p :: rest => ' ' :: (p.1 ++ '=' :: '"' :: p.2 ++ '"' :: serializeAttrs rest)

mutual
/-- Serialization of one node, modelling the markup produced by an
`innerHTML` read (entity escaping not modelled; see the header). -/
def serializeNode : XNode → Str
  | XNode.txt s => s
  | XNode.elem t a kids =>
      '<' :: (t ++ serializeAttrs a ++ '>' :: serializeNodes kids)
        ++ '<' :: '/' :: t ++ ['>']
/-- Serialization of a forest of nodes (an element's `innerHTML`). -/
def serializeNodes : List XNode → Str
  | [] => []
  | n :: rest => serializeNode n ++ serializeNodes rest
end

/-- Characters allowed in a tag or attribute name by the markup parser. -/
def isNameChar (c : Char) : Bool := c.isAlpha || c.isDigit || c = '-' || c = ':'

/-- Fuelled attribute parsing for `innerHTML` writes: a sequence of
`name="value"` items, ending at `>` or `/>`.  Malformed input (never produced
by re-serialized engine strings) stops the attribute list. -/
def parseAttrsF : Nat → Str → Attrs × Str
  | 0, l => ([], l)
  | fuel + 1, l =>
      let l1 := l.dropWhile isWsChar
      match l1 with
      | [] => ([], [])
      | '>' :: _ => ([], l1)
      | '/' :: _ => ([], l1)
      | _ =>
          let name := l1.takeWhile isNameChar
          if name.isEmpty then ([], l1)
          else
            match l1.drop name.length with
            | '=' :: '"' :: l3 =>
                let v := l3.takeWhile (fun c => !(c = '"' : Bool))
                match l3.drop v.length with
                | '"' :: l4 =>
                    let r := parseAttrsF fuel l4
                    ((name, v) :: r.1, r.2)
                | _ => ([], [])
            | l2 => ((name, []) :: (parseAttrsF fuel l2).1, (parseAttrsF fuel l2).2)

/-- Consumes a closing tag for `name` if it is next in the input. -/
def dropClose (name : Str) (l : Str) : Str :=
  let pat := '<' :: '/' :: (name ++ ['>'])
  if pat.isPrefixOf l then l.drop pat.length else l

/-- Fuelled markup parser for `innerHTML` writes and for `page.setContent`:
text runs, elements with attributes and children, self-closing tags.  A
closing tag returns control to the enclosing element; stray markup is skipped
(browsers error-correct; the engine only ever parses strings obtained from
serializations with token text substituted, which are well formed).  Fuel
`length + 1` suffices because every recursive call consumes input. -/
def parseNodesF : Nat → Str → List XNode × Str
  | 0, l => ([], l)
  | _ + 1, [] => ([], [])
  | _ + 1, '<' :: '/' :: rest => ([], '<' :: '/' :: rest)
  | fuel + 1, '<' :: rest =>
      let name := rest.takeWhile isNameChar
      if name.isEmpty then parseNodesF fuel rest
      else
        let afterAttrs := parseAttrsF (fuel + 1) (rest.drop name.length)
        match afterAttrs.2 with
        | '>' :: inner =>
            let kidsR := parseNodesF fuel inner
            let r3 := dropClose name kidsR.2
            let sibsR := parseNodesF fuel r3
            (XNode.elem name afterAttrs.1 kidsR.1 :: sibsR.1, sibsR.2)
        | '/' :: '>' :: after =>
            let sibsR := parseNodesF fuel after
            (XNode.elem name afterAttrs.1 [] :: sibsR.1, sibsR.2)
        | r1 => ([], r1)
  | fuel + 1, c :: rest =>
      let t := (c :: rest).takeWhile (fun ch => !(ch = '<' : Bool))
      let sibsR := parseNodesF fuel ((c :: rest).drop t.length)
      (XNode.txt t :: sibsR.1, sibsR.2)

/-- Markup parsing as performed by an `innerHTML` write. -/
def parseNodes (s : Str) : List XNode := (parseNodesF (s.length + 1) s).1

/-- Tag literal `tspan`. -/
def tspanTag : Str := "tspan".toList

/-- Tag literal `text`. -/
def textTag : Str := "text".toList

/-- Tags matched by the group mutator's selector `text, tspan`.  Selector
matching is modelled case-exactly on the lowercase SVG tag names used by the
templates. -/
def isTDTag (t : Str) : Bool := t = textTag || t = tspanTag

mutual
/-- Count of `tspan` descendants of one node, the node included. -/
def countTspanN : XNode → Nat
  | XNode.txt _ => 0
  | XNode.elem t _ kids => (if t = tspanTag then 1 else 0) + countTspanF kids
/-- Count of `tspan` elements in a forest, modelling the length of
`el.getElementsByTagName('tspan')` when applied to an element's children. -/
def countTspanF : List XNode → Nat
  | [] => 0
  | n :: rest => countTspanN n + countTspanF rest
end

mutual
/-- Sets the `textContent` of the first `tspan` in pre-order (the node itself
first, then its subtree), used for the single-tspan fallback of the text
mutator (`tspans[0].textContent = value`). -/
def setFirstTspanN (v : Str) : XNode → XNode × Bool
  | XNode.txt s => (XNode.txt s, false)
  | XNode.elem t a kids =>
      if t = tspanTag then (XNode.elem t a [XNode.txt v], true)
      else
        let r := setFirstTspanF v kids
        (XNode.elem t a r.1, r.2)
/-- Forest version of `setFirstTspanN`. -/
def setFirstTspanF (v : Str) : List XNode → List XNode × Bool
  | [] => ([], false)
  | n :: rest =>
      let rn := setFirstTspanN v n
      if rn.2 then (rn.1 :: rest, true)
      else
        let rr := setFirstTspanF v rest
        (n :: rr.1, rr.2)
end

mutual
/-- Sets the `textContent` of the last `tspan` in pre-order (subtree before
the node itself when scanning from the right), the truncation target
`tspans[tspans.length - 1]`. -/
def setLastTspanN (v : Str) : XNode → XNode × Bool
  | XNode.txt s => (XNode.txt s, false)
  | XNode.elem t a kids =>
      let r := setLastTspanF v kids
      if r.2 then (XNode.elem t a r.1, true)
      else if t = tspanTag then (XNode.elem t a [XNode.txt v], true)
      else (XNode.elem t a kids, false)
/-- Forest version of `setLastTspanN`: later siblings take precedence. -/
def setLastTspanF (v : Str) : List XNode → List XNode × Bool
  | [] => ([], false)
  | n :: rest =>
      let rr := setLastTspanF v rest
      if rr.2 then (n :: rr.1, true)
      else
        let rn := setLastTspanN v n
        (rn.1 :: rest, rn.2)
end

mutual
/-- `textContent` of the last `tspan` in pre-order of a node's subtree. -/
def lastTspanTextN : XNode → Option Str
  | XNode.txt _ => none
  | XNode.elem t _ kids =>
      match lastTspanTextF kids with
      | some s => some s
      | none => if t = tspanTag then some (textContentF kids) else none
/-- Forest version of `lastTspanTextN`. -/
def lastTspanTextF : List XNode → Option Str
  | [] => none
  | n :: rest =>
      match lastTspanTextF rest with
      | some s => some s
      | none => lastTspanTextN n
end

mutual
/-- Does a node's subtree (node included) contain a `text` or `tspan`
element? -/
def hasTDN : XNode → Bool
  | XNode.txt _ => false
  | XNode.elem t _ kids => isTDTag t || hasTDF kids
/-- Forest version of `hasTDN`: emptiness test of
`el.querySelectorAll('text, tspan')`. -/
def hasTDF : List XNode → Bool
  | [] => false
  | n :: rest => hasTDN n || hasTDF rest
end

mutual
/-- Sets the `textContent` of the first `text` or `tspan` element in
pre-order, the group mutator's fallback `textDescendants[0].textContent =
value`. -/
def setFirstTDN (v : Str) : XNode → XNode × Bool
  | XNode.txt s => (XNode.txt s, false)
  | XNode.elem t a kids =>
      if isTDTag t then (XNode.elem t a [XNode.txt v], true)
      else
        let r := setFirstTDF v kids
        (XNode.elem t a r.1, r.2)
/-- Forest version of `setFirstTDN`. -/
def setFirstTDF (v : Str) : List XNode → List XNode × Bool
  | [] => ([], false)
  | n :: rest =>
      let rn := setFirstTDN v n
      if rn.2 then (rn.1 :: rest, true)
      else
        let rr := setFirstTDF v rest
        (n :: rr.1, rr.2)
end

/-- Body of the group mutator's per-descendant `forEach` (lines 187–210): the
four cascading checks on one `text`/`tspan` descendant — specific then generic
pattern against the markup-preserving content, then the same two against the
plain text — returning the mutated element on the first hit. -/
def tryMutateChild (hdr val : Str) : XNode → Option XNode
  | XNode.txt _ => none
  | XNode.elem t a kids =>
      let currentHTML := serializeNodes kids
      let currentText := textContentF kids
      if hasSpec hdr currentHTML then
        some (XNode.elem t a (parseNodes (replaceSpec hdr val currentHTML)))
      else if hasGen currentHTML then
        some (XNode.elem t a (parseNodes (replaceGen val currentHTML)))
      else if hasSpec hdr currentText then
        some (XNode.elem t a [XNode.txt (replaceSpec hdr val currentText)])
      else if hasGen currentText then
        some (XNode.elem t a [XNode.txt (replaceGen val currentText)])
      else none

mutual
/-- Pre-order sweep of the group mutator over one node.  A mutated descendant's
new children are not revisited; unmutated containers are descended into.  For
values without placeholder braces this coincides observably with the source's
`forEach` over the static `querySelectorAll('text, tspan')` list: a node from
the static list that got detached by an ancestor's mutation is mutated without
tree effect there, and its replacement contains no further matches. -/
def groupPassN (hdr val : Str) : XNode → XNode × Bool
  | XNode.txt s => (XNode.txt s, false)
  | XNode.elem t a kids =>
      if isTDTag t then
        match tryMutateChild hdr val (XNode.elem t a kids) with
        | some n2 => (n2, true)
        | none =>
            let r := groupPassF hdr val kids
            (XNode.elem t a r.1, r.2)
      else
        let r := groupPassF hdr val kids
        (XNode.elem t a r.1, r.2)
/-- Forest version of `groupPassN`; the flag is the `updated` variable. -/
def groupPassF (hdr val : Str) : List XNode → List XNode × Bool
  | [] => ([], false)
  | n :: rest =>
      let rn := groupPassN hdr val n
      let rr := groupPassF hdr val rest
      (rn.1 :: rr.1, rn.2 || rr.2)
end

/-- Group mutator (lines 181–223): run the descendant sweep; when nothing was
updated, overwrite the plain text of the first text-bearing descendant if one
exists, else do nothing.  The group path returns before the truncation logic
(line 223), so no truncation is applied here. -/
def groupMutate (hdr val : Str) (t : Str) (a : Attrs) (kids : List XNode) : XNode :=
  let r := groupPassF hdr val kids
  if r.2 then XNode.elem t a r.1
  else if hasTDF r.1 then XNode.elem t a (setFirstTDF val r.1).1
  else XNode.elem t a r.1

/-- Text mutator (lines 226–261): the five-step cascade — specific then
generic pattern on the markup-preserving content, specific then generic on the
plain text, then the token-free fallback (single-tspan update or wholesale
text overwrite). -/
def textMutate (hdr val : Str) (t : Str) (a : Attrs) (kids : List XNode) : XNode :=
  let currentHTML := serializeNodes kids
  if hasSpec hdr currentHTML then
    XNode.elem t a (parseNodes (replaceSpec hdr val currentHTML))
  else if hasGen currentHTML then
    XNode.elem t a (parseNodes (replaceGen val currentHTML))
  else
    let currentText := textContentF kids
    if hasSpec hdr currentText then
      XNode.elem t a [XNode.txt (replaceSpec hdr val currentText)]
    else if hasGen currentText then
      XNode.elem t a [XNode.txt (replaceGen val currentText)]
    else if countTspanF kids = 1 then
      XNode.elem t a (setFirstTspanF val kids).1
    else XNode.elem t a [XNode.txt val]

/-- Rendered bounding box, as returned by `getBBox`. -/
structure BBox where
  x : Fr
  y : Fr
  w : Fr
  h : Fr
deriving DecidableEq, Repr

/-- Measurement oracle: `getBBox` on the current state of a node; `none`
models a thrown exception. -/
abbrev BBoxFn := XNode → Option BBox

/-- Known raster extensions of the image-reference heuristic. -/
def extList : List Str :=
  [".jpeg".toList, ".jpg".toList, ".gif".toList, ".png".toList, ".webp".toList]

/-- Image-reference heuristic (lines 145–147): case-insensitive raster
extension suffix, or the literal prefix `http`, or the literal prefix
`data:`. -/
def isImageUrl (v : Str) : Bool :=
  (extList.any (fun e => e.isSuffixOf (lowerStr v)))
    || "http".toList.isPrefixOf v || "data:".toList.isPrefixOf v

/-- Geometry attributes copied from a rect to the promoted image. -/
def geomKeys : List Str :=
  ["x".toList, "y".toList, "width".toList, "height".toList, "rx".toList, "ry".toList]

/-- Attribute name `preserveAspectRatio`. -/
def parKey : Str := "preserveAspectRatio".toList

/-- Attribute name `href`. -/
def hrefKey : Str := "href".toList

/-- Attribute value `xMidYMid meet`. -/
def meetVal : Str := "xMidYMid meet".toList

/-- Attribute name `fill`. -/
def fillKey : Str := "fill".toList

/-- Rect-to-image promotion (lines 151–171, rect branch): a fresh image
element receiving the rect's geometry attributes verbatim when present, then
`preserveAspectRatio`, `href` and the original `id`. -/
def promoteRect (v : Str) (a : Attrs) : XNode :=
  let copied := geomKeys.foldl (fun acc k =>
      match getAttr a k with
      | some av => setAttr acc k av
      | none => acc) ([] : Attrs)
  let a1 := setAttr copied parKey meetVal
  let a2 := setAttr a1 hrefKey v
  let a3 := setAttr a2 idKey ((getAttr a idKey).getD [])
  XNode.elem "image".toList a3 []

/-- Stringification of a fraction for the bounding-box-copied attributes of
non-rect promotion.  JavaScript float printing is abstracted to an exact
representation; no theorem inspects these attribute values. -/
def frAttrStr (q : Fr) : Str :=
  if q.d = 1 then intToStr q.n else intToStr q.n ++ '/' :: intToStr q.d

/-- Non-rect promotion (lines 158–171): geometry from the measured bounding
box. -/
def promoteViaBBox (v : Str) (a : Attrs) (bb : BBox) : XNode :=
  let c1 := setAttr [] "x".toList (frAttrStr bb.x)
  let c2 := setAttr c1 "y".toList (frAttrStr bb.y)
  let c3 := setAttr c2 "width".toList (frAttrStr bb.w)
  let c4 := setAttr c3 "height".toList (frAttrStr bb.h)
  let a1 := setAttr c4 parKey meetVal
  let a2 := setAttr a1 hrefKey v
  let a3 := setAttr a2 idKey ((getAttr a idKey).getD [])
  XNode.elem "image".toList a3 []

/-- Basic-shape mutation (lines 143–175): promotion when the value looks like
an image reference (rect geometry copied verbatim, other shapes measured —
with an unhandled exception, `none`, when measurement fails), else a direct
`fill` attribute set. -/
def mutateShapeNode (bbox : BBoxFn) (v : Str) (t : Str) (a : Attrs)
    (kids : List XNode) : Option XNode :=
  if isImageUrl v then
    if lowerStr t = "rect".toList then some (promoteRect v a)
    else
      match bbox (XNode.elem t a kids) with
      | some bb => some (promoteViaBBox v a bb)
      | none => none
  else some (XNode.elem t (setAttr a fillKey v) kids)

/-- Image-element mutation (lines 140–142). -/
def mutateImageNode (v : Str) (t : Str) (a : Attrs) (kids : List XNode) : XNode :=
  XNode.elem t (setAttr (setAttr a hrefKey v) parKey meetVal) kids

mutual
/-- First `svg` element in pre-order (`document.querySelector('svg')`). -/
def querySvgN : XNode → Option XNode
  | XNode.txt _ => none
  | XNode.elem t a kids =>
      if t = "svg".toList then some (XNode.elem t a kids) else querySvgF kids
/-- Forest version of `querySvgN`. -/
def querySvgF : List XNode → Option XNode
  | [] => none
  | n :: rest =>
      match querySvgN n with
      | some r => some r
      | none => querySvgF rest
end

/-- Splits an SVG number list on whitespace and commas (accumulator holds the
current token reversed). -/
def splitNumAux : Str → Str → List Str
  | [], acc => if acc.isEmpty then [] else [acc.reverse]
  | c :: r, acc =>
      if isWsChar c || c = ',' then
        if acc.isEmpty then splitNumAux r [] else acc.reverse :: splitNumAux r []
      else splitNumAux r (c :: acc)

/-- Width component of `svg.viewBox.baseVal`: the third number of a
well-formed four-number viewBox attribute; `none` models the zero/absent case
(which is falsy in the `||` chain). -/
def viewBoxWidthAttr (a : Attrs) : Option Fr :=
  match getAttr a "viewBox".toList with
  | none => none
  | some s =>
      match splitNumAux s [] with
      | [n1, n2, n3, n4] =>
          match parseFloatQ n1, parseFloatQ n2, parseFloatQ n3, parseFloatQ n4 with
          | some _, some _, some w, some _ =>
              if w.eqB (Fr.ofInt 0) then none else some w
          | _, _, _, _ => none
      | _ => none

/-- Document width used by the truncation budget (lines 265–269):
`svg.viewBox.baseVal.width || parseFloat(svg.getAttribute('width'))`, with
`none` collapsing the falsy (`0`, `NaN`) and thrown (`svg` missing) cases,
all of which skip the truncation block. -/
def svgWidthOf (doc : List XNode) : Option Fr :=
  match querySvgF doc with
  | none => none
  | some n =>
      match viewBoxWidthAttr (attrsOfN n) with
      | some w => some w
      | none =>
          match getAttr (attrsOfN n) "width".toList with
          | none => none
          | some ws =>
              match parseFloatQ ws with
              | none => none
              | some w => if w.eqB (Fr.ofInt 0) then none else some w

/-- Ellipsis marker appended by the truncator. -/
def ellipsisStr : Str := "...".toList

/-- Truncation loop (lines 347–352): while the parent's measured width exceeds
the budget and the text variable is non-empty, drop one trailing character and
write `text + '...'` into the target (the last tspan when `useTspan`, else the
element's own text).  The fuel bound `text.length + 1` is exact: every
iteration shortens the text variable by one. -/
def truncLoopF (bbox : BBoxFn) (avail : Fr) (useTspan : Bool) (t : Str)
    (a : Attrs) : Nat → Str → List XNode → List XNode × Str
  | 0, text, kids => (kids, text)
  | fuel + 1, text, kids =>
      match bbox (XNode.elem t a kids) with
      | none => (kids, text)
      | some bb =>
          if bb.w.gtB avail then
            if text.isEmpty then (kids, text)
            else
              let t2 := text.dropLast
              let kids2 :=
                if useTspan then (setLastTspanF (t2 ++ ellipsisStr) kids).1
                else [XNode.txt (t2 ++ ellipsisStr)]
              truncLoopF bbox avail useTspan t a fuel t2 kids2
          else (kids, text)

/-- Truncation loop with its exact fuel; also returns the final value of the
`text` variable. -/
def truncRun (bbox : BBoxFn) (avail : Fr) (useTspan : Bool) (t : Str)
    (a : Attrs) (text0 : Str) (kids : List XNode) : List XNode × Str :=
  truncLoopF bbox avail useTspan t a (text0.length + 1) text0 kids

/-- Overflow truncation of one freshly rewritten text element (lines
263–358): skipped when the document width is unavailable or the measurement
throws; otherwise, when the measured width exceeds
`svgWidth - bbox.x - margin`, the loop shrinks the target span. -/
def truncateElement (bbox : BBoxFn) (svgW : Option Fr) (t : Str) (a : Attrs)
    (kids : List XNode) : XNode :=
  match svgW with
  | none => XNode.elem t a kids
  | some w =>
      match bbox (XNode.elem t a kids) with
      | none => XNode.elem t a kids
      | some bb =>
          let avail := (w.sub bb.x).sub (Fr.ofInt 10)
          if bb.w.gtB avail then
            let useTspan := decide (0 < countTspanF kids)
            let text0 :=
              if useTspan then (lastTspanTextF kids).getD []
              else textContentF kids
            XNode.elem t a (truncRun bbox avail useTspan t a text0 kids).1
          else XNode.elem t a kids

/-- Data row: column name to string value. -/
abbrev Row := List (Str × Str)

/-- Row lookup, modelling `row[csvHeader]` (`none` = `undefined`). -/
def lookupRow : Row → Str → Option Str
  | [], _ => none
  | p :: rest, k => if p.1 = k then some p.2 else lookupRow rest k

/-- Basic shape tags (line 143). -/
def shapesList : List Str :=
  ["rect".toList, "path".toList, "circle".toList, "ellipse".toList]

/-- Mutation pipeline for one mapping entry (lines 129–361): resolve the row
value (skip on `undefined` or empty), find the element by id (skip when
missing), then dispatch on the lower-cased tag: image fill, basic-shape
promotion/fill, group mutation, or text mutation followed immediately by the
truncation pass on that element.  `none` models an uncaught exception. -/
def applyEntry (bbox : BBoxFn) (doc : List XNode) (row : Row)
    (svgId hdr : Str) : Option (List XNode) :=
  match lookupRow row hdr with
  | none => some doc
  | some v =>
      if v.isEmpty then some doc
      else
        match getByIdF svgId doc with
        | none => some doc
        | some (XNode.txt _) => some doc
        | some (XNode.elem t0 a kids) =>
            let tagL := lowerStr t0
            if tagL = "image".toList then
              some (replaceById doc svgId (mutateImageNode v t0 a kids))
            else if shapesList.contains tagL then
              match mutateShapeNode bbox v t0 a kids with
              | none => none
              | some n2 => some (replaceById doc svgId n2)
            else if tagL = "g".toList then
              some (replaceById doc svgId (groupMutate hdr v t0 a kids))
            else
              match textMutate hdr v t0 a kids with
              | XNode.elem t1 a1 k1 =>
                  let doc1 := replaceById doc svgId (XNode.elem t1 a1 k1)
                  some (replaceById doc1 svgId
                    (truncateElement bbox (svgWidthOf doc1) t1 a1 k1))
              | n1 => some (replaceById doc svgId n1)

/-- Application of all mapping entries of one row, in mapping-key order
(lines 126–363); an uncaught exception aborts the remaining entries. -/
def applyMapping (bbox : BBoxFn) (doc : List XNode)
    (mapping : List (Str × Str)) (row : Row) : Option (List XNode) :=
  mapping.foldl (fun od p =>
    match od with
    | none => none
    | some d => applyEntry bbox d row p.1 p.2) (some doc)

/-- Row loop of `generateBanners` (lines 110–386) restricted to the document
pipeline: the page state carried between iterations is discarded by
`page.setContent(svgTemplate, …)`, which reloads the sized template string —
a constant never reassigned inside the loop — so each row starts from the
pristine parsed template.  The emitted list contains the mutated document of
each row, the input to the renderer's screenshot. -/
def runRowsAux (sized : Str) (bbox : BBoxFn) (mapping : List (Str × Str)) :
    List Row → List XNode → List (Option (List XNode))
  | [], _ => []
  | r :: rs, _page =>
      let fresh := parseNodes sized
      let od := applyMapping bbox fresh mapping r
      od :: runRowsAux sized bbox mapping rs (od.getD fresh)

/-- Column name `product_name`. -/
def productKey : Str := "product_name".toList

/-- Characters kept by the file-name sanitizer `[^a-z0-9ऀ-ॿ]` with
flags `gi`: ASCII letters (both cases via `i`), digits, and the Devanagari
block U+0900–U+097F. -/
def isKeptChar (c : Char) : Bool :=
  (97 ≤ c.toNat && c.toNat ≤ 122) || (65 ≤ c.toNat && c.toNat ≤ 90)
    || c.isDigit || (0x900 ≤ c.toNat && c.toNat ≤ 0x97F)

/-- Sanitizer replacement of one character. -/
def sanitizeChar (c : Char) : Char := if isKeptChar c then c else '_'

/-- File base name of row `i` (line 112): `product_name` when truthy, else
`banner_{i+1}`, every disallowed character replaced by `_`. -/
def safeNameOf (row : Row) (i : Nat) : Str :=
  let base :=
    match lookupRow row productKey with
    | some v => if v.isEmpty then "banner_".toList ++ natToStr (i + 1) else v
    | none => "banner_".toList ++ natToStr (i + 1)
  base.map sanitizeChar

/-- Output file name of row `i` (line 113). -/
def fileNameOf (row : Row) (i : Nat) : Str := safeNameOf row i ++ ".png".toList

/-- Display name pushed to `generatedFiles` (line 385). -/
def displayNameOf (row : Row) (i : Nat) : Str :=
  match lookupRow row productKey with
  | some v => if v.isEmpty then "Banner ".toList ++ natToStr (i + 1) else v
  | none => "Banner ".toList ++ natToStr (i + 1)

/-- Entry of the returned `generatedFiles` sequence. -/
structure ArtifactEntry where
  name : Str
  file : Str
deriving DecidableEq, Repr

/-- Artifact entries accumulated by the row loop, one per row. -/
def artifactsAux : Nat → List Row → List ArtifactEntry
  | _, [] => []
  | i, r :: rs => ⟨displayNameOf r i, fileNameOf r i⟩ :: artifactsAux (i + 1) rs

/-- The `generatedFiles` list of a batch. -/
def generatedFilesOf (rows : List Row) : List ArtifactEntry := artifactsAux 0 rows

/-- Overwriting write into the session directory: the path maps to the index
of the row whose screenshot was last stored there. -/
def updateAssoc : List (Str × Nat) → Str → Nat → List (Str × Nat)
  | [], k, v => [(k, v)]
  | p :: rest, k, v =>
      if p.1 = k then (p.1, v) :: rest else p :: updateAssoc rest k v

/-- Lookup in the modelled file system. -/
def fsLookup : List (Str × Nat) → Str → Option Nat
  | [], _ => none
  | p :: rest, k => if p.1 = k then some p.2 else fsLookup rest k

/-- File-system state after the screenshot writes of all rows from index `i`
onward. -/
def fsAfterAux : List (Str × Nat) → Nat → List Row → List (Str × Nat)
  | fs, _, [] => fs
  | fs, i, r :: rs => fsAfterAux (updateAssoc fs (fileNameOf r i) i) (i + 1) rs

/-- File-system state after a whole batch. -/
def fsAfter (rows : List Row) : List (Str × Nat) := fsAfterAux [] 0 rows

/-- File name of row `i` within a batch. -/
def fileNameAt (rows : List Row) (i : Nat) : Str :=
  match rows[i]? with
  | some r => fileNameOf r i
  | none => []

mutual
/-- Mutual structural induction principle over nodes, used because Lean 4.14
compiles plain recursion over the nested `List XNode` field by well-founded
recursion. -/
theorem xNodeInd (P : XNode → Prop) (Q : List XNode → Prop)
    (htxt : ∀ s, P (XNode.txt s))
    (helem : ∀ t a kids, Q kids → P (XNode.elem t a kids))
    (hnil : Q [])
    (hcons : ∀ n rest, P n → Q rest → Q (n :: rest)) :
    ∀ n : XNode, P n
  | XNode.txt s => htxt s
  | XNode.elem t a kids => helem t a kids (xForestInd P Q htxt helem hnil hcons kids)
/-- Mutual structural induction principle over forests. -/
theorem xForestInd (P : XNode → Prop) (Q : List XNode → Prop)
    (htxt : ∀ s, P (XNode.txt s))
    (helem : ∀ t a kids, Q kids → P (XNode.elem t a kids))
    (hnil : Q [])
    (hcons : ∀ n rest, P n → Q rest → Q (n :: rest)) :
    ∀ l : List XNode, Q l
  | [] => hnil
  | n :: rest => hcons n rest (xNodeInd P Q htxt helem hnil hcons n)
      (xForestInd P Q htxt helem hnil hcons rest)
end

/-- State independence of the row loop: the page state carried between
iterations never influences an emitted document, because `page.setContent`
reloads the constant sized template string first. -/
theorem runRowsAux_eq_map (sized : Str) (bbox : BBoxFn)
    (mapping : List (Str × Str)) :
    ∀ rows page, runRowsAux sized bbox mapping rows page
        = rows.map (fun r => applyMapping bbox (parseNodes sized) mapping r) := by
  intro rows
  induction rows with
  | nil => intro page; rfl
  | cons r rs ih =>
      intro page
      simp only [runRowsAux, List.map]
      rw [ih]

/-- C1 — cross-row isolation (reset to pristine): the row loop's emitted
document for each row is a function of the sized template string, the mapping
and that row alone; in particular running row A then row B hands the renderer
exactly the document for B that running row B alone hands it.  The loop model
`runRowsAux` carries the page state between iterations exactly as the source
does, and the theorem shows that state is discarded: each row starts from the
re-parsed sized template, which is never modified inside the loop. -/
theorem c1_cross_row_isolation (sized : Str) (bbox : BBoxFn)
    (mapping : List (Str × Str)) :
    (∀ rows page, runRowsAux sized bbox mapping rows page
        = rows.map (fun r => applyMapping bbox (parseNodes sized) mapping r))
    ∧ (∀ (a b : Row) (p1 p2 : List XNode),
        (runRowsAux sized bbox mapping [a, b] p1)[1]?
          = (runRowsAux sized bbox mapping [b] p2)[0]?) := by
  refine ⟨runRowsAux_eq_map sized bbox mapping, ?_⟩
  intro a b p1 p2
  rw [runRowsAux_eq_map, runRowsAux_eq_map]
  rfl

/-- C8 — silent skip on missing target or empty value: a mapping entry whose
column is absent from the row, whose value is the empty string, or whose id
matches no element, mutates nothing, raises nothing, and the remaining
entries of the row are processed as if the entry were not there. -/
theorem c8_silent_skip (bbox : BBoxFn) (doc : List XNode) (row : Row)
    (svgId hdr : Str) (rest : List (Str × Str))
    (h : lookupRow row hdr = none ∨ lookupRow row hdr = some []
        ∨ getByIdF svgId doc = none) :
    applyEntry bbox doc row svgId hdr = some doc
    ∧ applyMapping bbox doc ((svgId, hdr) :: rest) row
        = applyMapping bbox doc rest row := by
  have h1 : applyEntry bbox doc row svgId hdr = some doc := by
    rcases h with h | h | h
    · simp [applyEntry, h]
    · simp [applyEntry, h]
    · unfold applyEntry
      cases hv : lookupRow row hdr with
      | none => rfl
      | some v =>
          cases v with
          | nil => rfl
          | cons c cs => simp [h]
  refine ⟨h1, ?_⟩
  simp only [applyMapping, List.foldl, h1]

/-- Negation of the strict loop guard gives the non-strict exit bound. -/
theorem Fr.leB_of_gtB_false (a b : Fr) (h : Fr.gtB a b = false) :
    Fr.leB a b = true := by
  simp only [Fr.gtB, decide_eq_false_iff_not, Int.not_lt] at h
  simpa [Fr.leB, decide_eq_true_eq] using h

/-- Postcondition of the truncation loop, for any fuel exceeding the length of
the text variable: on exit the parent measures within the budget or the text
variable is exhausted, and the final text is a prefix of the initial text
(each iteration removes exactly one trailing character). -/
theorem truncLoop_post (bbox : BBoxFn) (avail : Fr) (useTspan : Bool)
    (t : Str) (a : Attrs) (hTot : ∀ n, (bbox n).isSome = true) :
    ∀ (fuel : Nat) (text : Str) (kids : List XNode), text.length < fuel →
      ((∃ bb', bbox (XNode.elem t a
            (truncLoopF bbox avail useTspan t a fuel text kids).1) = some bb'
          ∧ bb'.w.leB avail = true)
        ∨ (truncLoopF bbox avail useTspan t a fuel text kids).2 = [])
      ∧ ((truncLoopF bbox avail useTspan t a fuel text kids).2).isPrefixOf text
          = true := by
  intro fuel
  induction fuel with
  | zero => intro text kids h; exact absurd h (Nat.not_lt_zero _)
  | succ f ih =>
      intro text kids h
      obtain ⟨bb, hbb⟩ : ∃ bb, bbox (XNode.elem t a kids) = some bb := by
        have hs := hTot (XNode.elem t a kids)
        cases hx : bbox (XNode.elem t a kids) with
        | none => rw [hx] at hs; exact absurd hs (by simp)
        | some bb => exact ⟨bb, rfl⟩
      by_cases hgt : bb.w.gtB avail = true
      · cases text with
        | nil =>
            have hstep : truncLoopF bbox avail useTspan t a (f + 1) [] kids
                = (kids, []) := by
              simp [truncLoopF, hbb, hgt]
            rw [hstep]
            exact ⟨Or.inr rfl, by rw [List.isPrefixOf_iff_prefix]⟩
        | cons c cs =>
            have hlen : ((c :: cs).dropLast).length < f := by
              have h1 : (c :: cs).length ≤ f := Nat.lt_succ_iff.mp h
              simp only [List.length_dropLast, List.length_cons] at h1 ⊢
              omega
            have hstep : truncLoopF bbox avail useTspan t a (f + 1) (c :: cs) kids
                = truncLoopF bbox avail useTspan t a f ((c :: cs).dropLast)
                    (if useTspan then
                      (setLastTspanF ((c :: cs).dropLast ++ ellipsisStr) kids).1
                     else [XNode.txt ((c :: cs).dropLast ++ ellipsisStr)]) := by
              simp [truncLoopF, hbb, hgt]
            rw [hstep]
            have hrec := ih ((c :: cs).dropLast)
              (if useTspan then
                 (setLastTspanF ((c :: cs).dropLast ++ ellipsisStr) kids).1
               else [XNode.txt ((c :: cs).dropLast ++ ellipsisStr)]) hlen
            refine ⟨hrec.1, ?_⟩
            have hpre : ((c :: cs).dropLast).isPrefixOf (c :: cs) = true := by
              rw [List.isPrefixOf_iff_prefix]; exact List.dropLast_prefix _
            rw [List.isPrefixOf_iff_prefix] at hpre ⊢
            have hr2 := hrec.2
            rw [List.isPrefixOf_iff_prefix] at hr2
            exact List.IsPrefix.trans hr2 hpre
      · have hgt' : bb.w.gtB avail = false := by
          cases hx : bb.w.gtB avail with
          | false => rfl
          | true => exact absurd hx hgt
        have hstep : truncLoopF bbox avail useTspan t a (f + 1) text kids
            = (kids, text) := by
          simp [truncLoopF, hbb, hgt']
        rw [hstep]
        refine ⟨Or.inl ⟨bb, hbb, Fr.leB_of_gtB_false _ _ hgt'⟩, ?_⟩
        rw [List.isPrefixOf_iff_prefix]

/-- C7 — truncation convergence: for a text element measuring wider than its
budget, the character-removal loop (modelled with its exact iteration bound,
one trailing character removed and the parent re-measured per iteration)
terminates with the parent's width within the budget or the target's
remaining text (the text variable, before the appended ellipsis) empty; the
remaining text is a prefix of the original. -/
theorem c7_truncation_convergence (bbox : BBoxFn) (avail : Fr)
    (useTspan : Bool) (t : Str) (a : Attrs) (text0 : Str) (kids : List XNode)
    (hTot : ∀ n, (bbox n).isSome = true)
    (hOver : ∃ bb, bbox (XNode.elem t a kids) = some bb
        ∧ bb.w.gtB avail = true) :
    ((∃ bb', bbox (XNode.elem t a
          (truncRun bbox avail useTspan t a text0 kids).1) = some bb'
        ∧ bb'.w.leB avail = true)
      ∨ (truncRun bbox avail useTspan t a text0 kids).2 = [])
    ∧ ((truncRun bbox avail useTspan t a text0 kids).2).isPrefixOf text0
        = true := by
  have := hOver
  exact truncLoop_post bbox avail useTspan t a hTot (text0.length + 1) text0 kids
    (Nat.lt_succ_self _)

/-- Concrete measurement oracle for the truncation witness: width equals the
current plain-text length. -/
def bboxByLen : BBoxFn := fun n =>
  some ⟨⟨0, 1⟩, ⟨0, 1⟩, ⟨((textContentN n).length : Int), 1⟩, ⟨10, 1⟩⟩

/-- Witness for C7 at a concrete overflowing input. -/
theorem c7_truncation_convergence_witness :
    ((∃ bb', bboxByLen (XNode.elem "text".toList []
          (truncRun bboxByLen ⟨5, 1⟩ false "text".toList []
            "HELLOWORLD".toList [XNode.txt "HELLOWORLD".toList]).1) = some bb'
        ∧ bb'.w.leB ⟨5, 1⟩ = true)
      ∨ (truncRun bboxByLen ⟨5, 1⟩ false "text".toList []
            "HELLOWORLD".toList [XNode.txt "HELLOWORLD".toList]).2 = [])
    ∧ ((truncRun bboxByLen ⟨5, 1⟩ false "text".toList []
          "HELLOWORLD".toList [XNode.txt "HELLOWORLD".toList]).2).isPrefixOf
        "HELLOWORLD".toList = true :=
  c7_truncation_convergence bboxByLen ⟨5, 1⟩ false "text".toList []
    "HELLOWORLD".toList [XNode.txt "HELLOWORLD".toList]
    (fun _ => rfl) ⟨⟨⟨0, 1⟩, ⟨0, 1⟩, ⟨10, 1⟩, ⟨10, 1⟩⟩, rfl, by decide⟩

/-- Witness for C8 at a concrete input (empty row, so the column is absent). -/
theorem c8_silent_skip_witness :
    (lookupRow ([] : Row) "h".toList = none
      ∨ lookupRow ([] : Row) "h".toList = some []
      ∨ getByIdF "x".toList [] = none)
    ∧ applyEntry (fun _ => none) [] [] "x".toList "h".toList = some []
    ∧ applyMapping (fun _ => none) [] [("x".toList, "h".toList)] []
        = applyMapping (fun _ => none) [] [] [] :=
  ⟨Or.inl rfl,
    c8_silent_skip (fun _ => none) [] [] "x".toList "h".toList [] (Or.inl rfl)⟩

/-- Updating a path and reading it back yields the new index. -/
theorem fsLookup_update_same (fs : List (Str × Nat)) (k : Str) (v : Nat) :
    fsLookup (updateAssoc fs k v) k = some v := by
  induction fs with
  | nil => simp [updateAssoc, fsLookup]
  | cons p rest ih =>
      by_cases hp : p.1 = k
      · simp [updateAssoc, fsLookup, hp]
      · simp [updateAssoc, fsLookup, hp, ih]

/-- Updating a path leaves other paths unchanged. -/
theorem fsLookup_update_other (fs : List (Str × Nat)) (k name : Str) (v : Nat)
    (h : name ≠ k) :
    fsLookup (updateAssoc fs k v) name = fsLookup fs name := by
  have hkn : ¬ k = name := fun hx => h hx.symm
  induction fs with
  | nil => simp [updateAssoc, fsLookup, hkn]
  | cons p rest ih =>
      by_cases hp : p.1 = k
      · simp [updateAssoc, fsLookup, hp, hkn]
      · simp [updateAssoc, fsLookup, hp, ih]

/-- A path present before a run of writes with indices ≥ k is present after,
holding its old index or one of the new, larger ones. -/
theorem fsAfterAux_mono (rows : List Row) :
    ∀ (fs : List (Str × Nat)) (k : Nat) (name : Str) (m : Nat),
      fsLookup fs name = some m →
      ∃ m', fsLookup (fsAfterAux fs k rows) name = some m' ∧ (m' = m ∨ k ≤ m') := by
  induction rows with
  | nil => intro fs k name m h; exact ⟨m, h, Or.inl rfl⟩
  | cons r rs ih =>
      intro fs k name m h
      by_cases hn : name = fileNameOf r k
      · have h1 : fsLookup (updateAssoc fs (fileNameOf r k) k) name = some k := by
          rw [hn]; exact fsLookup_update_same _ _ _
        obtain ⟨m', hm', hor⟩ := ih (updateAssoc fs (fileNameOf r k) k) (k + 1) name k h1
        refine ⟨m', hm', Or.inr ?_⟩
        rcases hor with hor | hor
        · omega
        · omega
      · have h1 : fsLookup (updateAssoc fs (fileNameOf r k) k) name = some m := by
          rw [fsLookup_update_other _ _ _ _ hn]; exact h
        obtain ⟨m', hm', hor⟩ := ih (updateAssoc fs (fileNameOf r k) k) (k + 1) name m h1
        refine ⟨m', hm', ?_⟩
        rcases hor with hor | hor
        · exact Or.inl hor
        · exact Or.inr (by omega)

/-- After the batch, the path of row `idx` holds an index at least `idx`: a
later row with the same sanitized name overwrites an earlier one. -/
theorem fsAfterAux_last_write (rows : List Row) :
    ∀ (fs : List (Str × Nat)) (k idx : Nat) (r : Row),
      rows[idx]? = some r →
      ∃ m, fsLookup (fsAfterAux fs k rows) (fileNameOf r (k + idx)) = some m
        ∧ k + idx ≤ m := by
  induction rows with
  | nil => intro fs k idx r h; simp at h
  | cons r0 rs ih =>
      intro fs k idx r h
      cases idx with
      | zero =>
          have hr : r = r0 := by simpa using h.symm
          subst hr
          have h1 : fsLookup (updateAssoc fs (fileNameOf r 0) 0) (fileNameOf r 0)
              = some 0 := fsLookup_update_same _ _ _
          have h2 : fsLookup (updateAssoc fs (fileNameOf r k) k) (fileNameOf r k)
              = some k := fsLookup_update_same _ _ _
          obtain ⟨m', hm', hor⟩ := fsAfterAux_mono rs
            (updateAssoc fs (fileNameOf r k) k) (k + 1) (fileNameOf r k) k h2
          refine ⟨m', ?_, ?_⟩
          · simpa [fsAfterAux] using hm'
          · rcases hor with hor | hor <;> omega
      | succ j =>
          have hj : rs[j]? = some r := by simpa using h
          obtain ⟨m, hm, hle⟩ := ih (updateAssoc fs (fileNameOf r0 k) k) (k + 1) j r hj
          refine ⟨m, ?_, ?_⟩
          · have : k + 1 + j = k + (j + 1) := by omega
            rw [this] at hm
            simpa [fsAfterAux] using hm
          · omega

/-- The artifact list has one entry per row. -/
theorem artifactsAux_length : ∀ (i : Nat) (rows : List Row),
    (artifactsAux i rows).length = rows.length := by
  intro i rows
  induction rows generalizing i with
  | nil => rfl
  | cons r rs ih => simp [artifactsAux, ih]

/-- C10 — artifact names can collide and overwrite: the sanitizing name map is
not injective (witnessed by two product names sanitizing alike), and whenever
two rows share a sanitized file name the batch's final file system maps that
path to a row index at least the later one — never the earlier row — while
the returned artifact sequence still contains one entry per row. -/
theorem c10_filename_collision :
    (safeNameOf [(productKey, "a b".toList)] 0
        = safeNameOf [(productKey, "a_b".toList)] 0
      ∧ "a b".toList ≠ "a_b".toList)
    ∧ ∀ (rows : List Row) (i j : Nat) (r : Row), i < j → rows[j]? = some r →
        fileNameAt rows i = fileNameAt rows j →
        fsLookup (fsAfter rows) (fileNameAt rows i) ≠ some i
        ∧ (generatedFilesOf rows).length = rows.length := by
  refine ⟨⟨by decide, by decide⟩, ?_⟩
  intro rows i j r hij hj hnames
  have hatj : fileNameAt rows j = fileNameOf r j := by
    simp [fileNameAt, hj]
  obtain ⟨m, hm, hle⟩ := fsAfterAux_last_write rows [] 0 j r hj
  rw [Nat.zero_add] at hm hle
  refine ⟨?_, artifactsAux_length 0 rows⟩
  rw [hnames, hatj]
  show fsLookup (fsAfterAux [] 0 rows) (fileNameOf r j) ≠ some i
  rw [hm]
  intro hcontra
  have : m = i := Option.some.inj hcontra
  omega

/-- Witness for C10's universal part: two rows whose names sanitize to the
same file, the later one owning the final file. -/
theorem c10_filename_collision_witness :
    ([[(productKey, "a b".toList)], [(productKey, "a_b".toList)]][1]?
        = some [(productKey, "a_b".toList)])
    ∧ fileNameAt [[(productKey, "a b".toList)], [(productKey, "a_b".toList)]] 0
        = fileNameAt [[(productKey, "a b".toList)], [(productKey, "a_b".toList)]] 1
    ∧ fsLookup (fsAfter [[(productKey, "a b".toList)], [(productKey, "a_b".toList)]])
        (fileNameAt [[(productKey, "a b".toList)], [(productKey, "a_b".toList)]] 0)
        ≠ some 0
    ∧ (generatedFilesOf
        [[(productKey, "a b".toList)], [(productKey, "a_b".toList)]]).length = 2 := by
  have h := (c10_filename_collision).2
    [[(productKey, "a b".toList)], [(productKey, "a_b".toList)]] 0 1
    [(productKey, "a_b".toList)] (by decide) (by decide) (by decide)
  exact ⟨by decide, by decide, h.1, h.2⟩

/-- Template with a fractional explicit width, on which the exact-scaling
reading of the sizing claim fails. -/
def c4rawFrac : Str := "<svg width=\"100.5\" height=\"50\"></svg>".toList

/-- Counterexample for C4: for the template with `width="100.5"` the final
raster width is `Math.round(100.5 × 3) = 302`, which is not `100.5 × 3 =
301.5` — the final size equals the claimed product only after rounding, so
"equals (width, height) × 3 exactly" is false for fractional sizes. -/
theorem c4_fractional_counterexample :
    findNumCapture widthKey c4rawFrac = some "100.5".toList
    ∧ parseFloatQ "100.5".toList = some ⟨1005, 10⟩
    ∧ finalDims c4rawFrac = (some 302, some 150)
    ∧ Fr.eqB (Fr.ofInt 302) (Fr.mulInt ⟨1005, 10⟩ 3) = false :=
  ⟨rfl, rfl, rfl, rfl⟩

/-- C4 (amended) — document sizing with rounding: with explicit width and
height the final raster size is `Math.round(width × 3)` per axis (equal to
`width × 3` exactly whenever the sizes are integral); with neither explicit
pair nor viewBox it is `(800, 400) × 3 = (2400, 1200)`; with only a viewBox
the third and fourth captured components are used, rounded after scaling; and
the template's first `width="…"`/`height="…"` occurrences are rewritten to
the final values in the sized template string, which every row's pipeline
re-parses. -/
theorem c4_amended_sizing (raw : Str) :
    (∀ cw ch w h, findNumCapture widthKey raw = some cw →
        findNumCapture heightKey raw = some ch →
        parseFloatQ cw = some w → parseFloatQ ch = some h →
        finalDims raw = (some ((w.mulInt 3).jsRound), some ((h.mulInt 3).jsRound)))
    ∧ ((findNumCapture widthKey raw = none ∨ findNumCapture heightKey raw = none) →
        findViewBoxCaps raw = none →
        finalDims raw = (some 2400, some 1200))
    ∧ (∀ c3 c4 w h,
        (findNumCapture widthKey raw = none ∨ findNumCapture heightKey raw = none) →
        findViewBoxCaps raw = some (c3, c4) →
        parseFloatQ c3 = some w → parseFloatQ c4 = some h →
        finalDims raw = (some ((w.mulInt 3).jsRound), some ((h.mulInt 3).jsRound)))
    ∧ (∀ fontCss, sizedTemplate fontCss raw
        = injectFont fontCss (replaceAttrPat heightKey (dimStr (finalDims raw).2)
            (replaceAttrPat widthKey (dimStr (finalDims raw).1) raw)))
    ∧ (∀ (fontCss : Str) (bbox : BBoxFn) (mapping : List (Str × Str)) rows page,
        runRowsAux (sizedTemplate fontCss raw) bbox mapping rows page
          = rows.map (fun r =>
              applyMapping bbox (parseNodes (sizedTemplate fontCss raw)) mapping r)) := by
  refine ⟨?_, ?_, ?_, fun _ => rfl, fun fontCss bbox mapping rows page =>
    runRowsAux_eq_map _ bbox mapping rows page⟩
  · intro cw ch w h h1 h2 h3 h4
    simp [finalDims, pickedSize, h1, h2, h3, h4]
  · intro hwh hvb
    rcases hwh with hw | hh
    · cases hh : findNumCapture heightKey raw with
      | none => simp [finalDims, pickedSize, hw, hh, vbOrDefault, hvb]; decide
      | some ch => simp [finalDims, pickedSize, hw, hh, vbOrDefault, hvb]; decide
    · cases hw : findNumCapture widthKey raw with
      | none => simp [finalDims, pickedSize, hw, hh, vbOrDefault, hvb]; decide
      | some cw => simp [finalDims, pickedSize, hw, hh, vbOrDefault, hvb]; decide
  · intro c3 c4 w h hwh hvb h3 h4
    rcases hwh with hw | hh
    · cases hh : findNumCapture heightKey raw with
      | none => simp [finalDims, pickedSize, hw, hh, vbOrDefault, hvb, h3, h4]
      | some ch => simp [finalDims, pickedSize, hw, hh, vbOrDefault, hvb, h3, h4]
    · cases hw : findNumCapture widthKey raw with
      | none => simp [finalDims, pickedSize, hw, hh, vbOrDefault, hvb, h3, h4]
      | some cw => simp [finalDims, pickedSize, hw, hh, vbOrDefault, hvb, h3, h4]

/-- Template with integral explicit sizes for the C4 witness. -/
def c4rawInt : Str := "<svg width=\"800\" height=\"400\"></svg>".toList

/-- Witness for C4 (amended) at a template with explicit integral sizes. -/
theorem c4_amended_sizing_witness :
    findNumCapture widthKey c4rawInt = some "800".toList
    ∧ findNumCapture heightKey c4rawInt = some "400".toList
    ∧ parseFloatQ "800".toList = some ⟨800, 1⟩
    ∧ parseFloatQ "400".toList = some ⟨400, 1⟩
    ∧ finalDims c4rawInt = (some 2400, some 1200) :=
  ⟨rfl, rfl, rfl, rfl,
    (c4_amended_sizing c4rawInt).1 "800".toList "400".toList ⟨800, 1⟩ ⟨400, 1⟩
      rfl rfl rfl rfl⟩

/-- Reading an attribute just written. -/
theorem getAttr_setAttr_same (a : Attrs) (k v : Str) :
    getAttr (setAttr a k v) k = some v := by
  induction a with
  | nil => simp [setAttr, getAttr]
  | cons p rest ih =>
      by_cases hp : p.1 = k
      · simp [setAttr, getAttr, hp]
      · simp [setAttr, getAttr, hp, ih]

/-- Writing an attribute leaves the others unchanged. -/
theorem getAttr_setAttr_other (a : Attrs) (k k' v : Str) (h : k' ≠ k) :
    getAttr (setAttr a k v) k' = getAttr a k' := by
  have hkk : ¬ k = k' := fun hx => h hx.symm
  induction a with
  | nil => simp [setAttr, getAttr, hkk]
  | cons p rest ih =>
      by_cases hp : p.1 = k
      · simp [setAttr, getAttr, hp, hkk]
      · simp [setAttr, getAttr, hp, ih]

/-- Specification-side image-reference classifier, following the claim's
words: "ends in a known raster extension, or begins with an http(s) scheme,
or is a data URI".  Declared only to compare the specification's predicate
with the code's heuristic `isImageUrl`. -/
def isImageRefSpec (v : Str) : Bool :=
  (extList.any (fun e => e.isSuffixOf (lowerStr v)))
    || "http://".toList.isPrefixOf v || "https://".toList.isPrefixOf v
    || "data:".toList.isPrefixOf v

/-- Counterexample for C5: the value `httpabc` is not an image reference in
the claim's sense (no raster extension, no http(s) scheme, not a data URI),
so the claim demands the fill path; the code's `startsWith('http')` test
nevertheless takes the promotion path and replaces the rect by an image
element with no `fill` attribute. -/
theorem c5_http_prefix_counterexample :
    isImageRefSpec "httpabc".toList = false
    ∧ isImageUrl "httpabc".toList = true
    ∧ mutateShapeNode (fun _ => none) "httpabc".toList "rect".toList [] []
        = some (XNode.elem "image".toList
            [(parKey, meetVal), (hrefKey, "httpabc".toList), (idKey, [])] [])
    ∧ getAttr [(parKey, meetVal), (hrefKey, "httpabc".toList), (idKey, [])]
        fillKey = none :=
  ⟨rfl, rfl, rfl, rfl⟩

/-- C5 (amended) — value classification for basic shapes: for a rect, path,
circle or ellipse element bound to a non-empty value, the promotion path is
taken exactly when the code's heuristic holds (raster-extension suffix, or
literal prefix `http`, or prefix `data:`) — any produced node is an image
element; otherwise the element keeps its tag, children and other attributes
and only its `fill` attribute is set to the value.  The dispatch conjunct
ties this to the per-entry pipeline. -/
theorem c5_shape_classification (bbox : BBoxFn) (v t : Str) (a : Attrs)
    (kids : List XNode)
    (hShape : shapesList.contains (lowerStr t) = true) (hv : v ≠ []) :
    (isImageUrl v = true → ∀ n, mutateShapeNode bbox v t a kids = some n →
        tagOfN n = "image".toList)
    ∧ (isImageUrl v = false →
        mutateShapeNode bbox v t a kids
            = some (XNode.elem t (setAttr a fillKey v) kids)
        ∧ getAttr (setAttr a fillKey v) fillKey = some v
        ∧ ∀ k, k ≠ fillKey → getAttr (setAttr a fillKey v) k = getAttr a k)
    ∧ (∀ (doc : List XNode) (row : Row) (svgId hdr : Str),
        lookupRow row hdr = some v →
        getByIdF svgId doc = some (XNode.elem t a kids) →
        applyEntry bbox doc row svgId hdr
          = match mutateShapeNode bbox v t a kids with
            | none => none
            | some n2 => some (replaceById doc svgId n2)) := by
  refine ⟨?_, ?_, ?_⟩
  · intro hi n hn
    unfold mutateShapeNode at hn
    rw [hi] at hn
    simp only [if_pos] at hn
    by_cases hr : lowerStr t = "rect".toList
    · rw [if_pos hr] at hn
      cases hn
      rfl
    · rw [if_neg hr] at hn
      cases hb : bbox (XNode.elem t a kids) with
      | none => rw [hb] at hn; cases hn
      | some bb => rw [hb] at hn; cases hn; rfl
  · intro hi
    refine ⟨?_, getAttr_setAttr_same a fillKey v, fun k hk =>
      getAttr_setAttr_other a fillKey k v hk⟩
    unfold mutateShapeNode
    rw [hi]
    simp
  · intro doc row svgId hdr hlook hget
    have hne : lowerStr t ≠ "image".toList := by
      intro hx; rw [hx] at hShape; exact absurd hShape (by decide)
    have hng : lowerStr t ≠ "g".toList := by
      intro hx; rw [hx] at hShape; exact absurd hShape (by decide)
    have hemp : v.isEmpty = false := by
      cases v with
      | nil => exact absurd rfl hv
      | cons c cs => rfl
    have hmem : lowerStr t ∈ shapesList := by simpa using hShape
    simp [applyEntry, hlook, hemp, hget]
    rw [if_neg (show ¬ lowerStr t = ['i', 'm', 'a', 'g', 'e'] from hne),
      if_pos hmem]

/-- Witness for C5 (amended) at a rect bound to a plain color value. -/
theorem c5_shape_classification_witness :
    shapesList.contains (lowerStr "rect".toList) = true
    ∧ isImageUrl "red".toList = false
    ∧ mutateShapeNode (fun _ => none) "red".toList "rect".toList
        [(idKey, "r1".toList)] []
        = some (XNode.elem "rect".toList
            [(idKey, "r1".toList), (fillKey, "red".toList)] []) := by
  refine ⟨rfl, rfl, ?_⟩
  have h := ((c5_shape_classification (fun _ => none) "red".toList "rect".toList
    [(idKey, "r1".toList)] [] rfl (by decide)).2.1 rfl).1
  exact h

/-- Measurement oracle reporting a huge width for every element, so that any
text element exceeds any realistic budget. -/
def c9bbox : BBoxFn := fun _ => some ⟨⟨0, 1⟩, ⟨0, 1⟩, ⟨1000, 1⟩, ⟨10, 1⟩⟩

/-- Row value of the C9 counterexample (20 characters, no braces). -/
def c9val : Str := "HELLOWORLDHELLOWORLD".toList

/-- Placeholder token of the C9 counterexample. -/
def c9tok : Str := "\x7b\x7bname\x7d\x7d".toList

/-- Document of the C9 counterexample: an svg of width 100 containing a group
that wraps a text element holding the placeholder. -/
def c9doc : List XNode :=
  [XNode.elem "svg".toList [("width".toList, "100".toList)]
    [XNode.elem "g".toList [(idKey, "grp".toList)]
      [XNode.elem "text".toList [(idKey, "t1".toList)] [XNode.txt c9tok]]]]

/-- The C9 document after the group-path mutation. -/
def c9docAfter : List XNode :=
  [XNode.elem "svg".toList [("width".toList, "100".toList)]
    [XNode.elem "g".toList [(idKey, "grp".toList)]
      [XNode.elem "text".toList [(idKey, "t1".toList)] [XNode.txt c9val]]]]

/-- Counterexample for C9: the mapping targets the group, whose text child is
rewritten through the group path; the document width is 100, the margin 10
and the element's measured left offset 0, so the budget is 90 while the
measured width is 1000 — yet the element's final content is the full
untruncated 20-character value with no ellipsis: the truncation pass was not
applied to this rewritten text element (the group path returns before the
truncation logic).  Had the pass run, the loop with this oracle would have
shortened the text and appended the ellipsis. -/
theorem c9_group_no_truncation_counterexample :
    applyEntry c9bbox c9doc [("name".toList, c9val)] "grp".toList "name".toList
      = some c9docAfter
    ∧ getByIdF "t1".toList c9docAfter
        = some (XNode.elem "text".toList [(idKey, "t1".toList)] [XNode.txt c9val])
    ∧ svgWidthOf c9docAfter = some ⟨100, 1⟩
    ∧ c9bbox (XNode.elem "text".toList [(idKey, "t1".toList)] [XNode.txt c9val])
        = some ⟨⟨0, 1⟩, ⟨0, 1⟩, ⟨1000, 1⟩, ⟨10, 1⟩⟩
    ∧ Fr.gtB ⟨1000, 1⟩ (Fr.sub (Fr.sub ⟨100, 1⟩ ⟨0, 1⟩) (Fr.ofInt 10)) = true
    ∧ textContentF [XNode.txt c9val] = c9val
    ∧ ellipsisStr.isSuffixOf c9val = false
    ∧ c9val ≠ [] :=
  ⟨rfl, rfl, rfl, rfl, rfl, rfl, rfl, by decide⟩

/-- C9 (amended) — truncation scope: the truncation pass runs immediately
after each direct text-path mutation only; a mapping entry bound to a group
element mutates via the group path and returns without any truncation — the
result is the bare group mutation and is independent of the measurement
oracle. -/
theorem c9_amended_truncation_scope (bbox1 bbox2 : BBoxFn) (doc : List XNode)
    (row : Row) (svgId hdr v t : Str) (a : Attrs) (kids : List XNode)
    (hv : lookupRow row hdr = some v) (hne : v ≠ [])
    (hel : getByIdF svgId doc = some (XNode.elem t a kids))
    (htag : lowerStr t = "g".toList) :
    applyEntry bbox1 doc row svgId hdr
      = some (replaceById doc svgId (groupMutate hdr v t a kids))
    ∧ applyEntry bbox1 doc row svgId hdr = applyEntry bbox2 doc row svgId hdr := by
  have hemp : v.isEmpty = false := by
    cases v with
    | nil => exact absurd rfl hne
    | cons c cs => rfl
  have hbr : ∀ bbox : BBoxFn, applyEntry bbox doc row svgId hdr
      = some (replaceById doc svgId (groupMutate hdr v t a kids)) := by
    intro bbox
    simp [applyEntry, hv, hemp, hel, htag]
    intro hmem
    exact absurd hmem (by decide)
  exact ⟨hbr bbox1, by rw [hbr bbox1, hbr bbox2]⟩

/-- Witness for C9 (amended) at the concrete group-mapped document, with two
different oracles. -/
theorem c9_amended_truncation_scope_witness :
    applyEntry c9bbox c9doc [("name".toList, c9val)] "grp".toList "name".toList
      = some (replaceById c9doc "grp".toList
          (groupMutate "name".toList c9val "g".toList [(idKey, "grp".toList)]
            [XNode.elem "text".toList [(idKey, "t1".toList)] [XNode.txt c9tok]]))
    ∧ applyEntry c9bbox c9doc [("name".toList, c9val)] "grp".toList "name".toList
      = applyEntry (fun _ => none) c9doc [("name".toList, c9val)] "grp".toList
          "name".toList :=
  c9_amended_truncation_scope c9bbox (fun _ => none) c9doc
    [("name".toList, c9val)] "grp".toList "name".toList c9val "g".toList
    [(idKey, "grp".toList)]
    [XNode.elem "text".toList [(idKey, "t1".toList)] [XNode.txt c9tok]]
    rfl (by decide) rfl rfl

/-- An element found by id carries that id attribute. -/
theorem getById_attr (i : Str) :
    ∀ l : List XNode, ∀ t a kids, getByIdF i l = some (XNode.elem t a kids) →
      getAttr a idKey = some i := by
  refine xForestInd
    (fun n => ∀ t a kids, getByIdN i n = some (XNode.elem t a kids) →
      getAttr a idKey = some i)
    (fun l => ∀ t a kids, getByIdF i l = some (XNode.elem t a kids) →
      getAttr a idKey = some i) ?_ ?_ ?_ ?_
  · intro s t a kids h
    simp [getByIdN] at h
  · intro t' a' kids' ih t a kids h
    unfold getByIdN at h
    by_cases hattr : getAttr a' idKey = some i
    · rw [if_pos hattr] at h
      have := Option.some.inj h
      simp only [XNode.elem.injEq] at this
      rw [← this.2.1]
      exact hattr
    · rw [if_neg hattr] at h
      exact ih t a kids h
  · intro t a kids h
    simp [getByIdF] at h
  · intro n rest ihn ihr t a kids h
    unfold getByIdF at h
    cases hn : getByIdN i n with
    | some r =>
        rw [hn] at h
        exact ihn t a kids (hn.trans h)
    | none =>
        rw [hn] at h
        exact ihr t a kids h

/-- Step equation of the id search on an element node. -/
theorem getByIdN_elem (i t : Str) (a : Attrs) (kids : List XNode) :
    getByIdN i (XNode.elem t a kids)
      = (if getAttr a idKey = some i then some (XNode.elem t a kids)
         else getByIdF i kids) := rfl

/-- Step equation of the id search on a non-empty forest. -/
theorem getByIdF_cons (i : Str) (n : XNode) (rest : List XNode) :
    getByIdF i (n :: rest)
      = (match getByIdN i n with
         | some r => some r
         | none => getByIdF i rest) := rfl

/-- Step equation of the replacement on an element node. -/
theorem replIdN_elem (i t : Str) (new : XNode) (a : Attrs) (kids : List XNode) :
    replIdN i new (XNode.elem t a kids)
      = (if getAttr a idKey = some i then (new, true)
         else (XNode.elem t a (replIdF i new kids).1, (replIdF i new kids).2)) := rfl

/-- Step equation of the replacement on a non-empty forest. -/
theorem replIdF_cons (i : Str) (new n : XNode) (rest : List XNode) :
    replIdF i new (n :: rest)
      = (if (replIdN i new n).2 = true then ((replIdN i new n).1 :: rest, true)
         else (n :: (replIdF i new rest).1, (replIdF i new rest).2)) := rfl

/-- Replacement skips a node in which the id search fails. -/
theorem replIdN_of_none (i : Str) (new : XNode) :
    ∀ n : XNode, getByIdN i n = none → replIdN i new n = (n, false) := by
  refine xNodeInd
    (fun n => getByIdN i n = none → replIdN i new n = (n, false))
    (fun l => getByIdF i l = none → replIdF i new l = (l, false)) ?_ ?_ ?_ ?_
  · intro s _h
    rfl
  · intro t a kids ih h
    rw [getByIdN_elem] at h
    by_cases hattr : getAttr a idKey = some i
    · rw [if_pos hattr] at h; cases h
    · rw [if_neg hattr] at h
      rw [replIdN_elem, if_neg hattr, ih h]
  · intro _h
    rfl
  · intro n rest ihn ihr h
    rw [getByIdF_cons] at h
    cases hn : getByIdN i n with
    | some r => rw [hn] at h; cases h
    | none =>
        rw [hn] at h
        rw [replIdF_cons, ihn hn, ihr h]
        simp

/-- Forest version of `replIdN_of_none`. -/
theorem replIdF_of_none (i : Str) (new : XNode) :
    ∀ l : List XNode, getByIdF i l = none → replIdF i new l = (l, false) := by
  intro l
  induction l with
  | nil => intro _h; rfl
  | cons n rest ih =>
      intro h
      rw [getByIdF_cons] at h
      cases hn : getByIdN i n with
      | some r => rw [hn] at h; cases h
      | none =>
          rw [hn] at h
          rw [replIdF_cons, replIdN_of_none i new n hn, ih h]
          simp

/-- When the id search succeeds on a node, replacement fires there and the
replaced node resolves the id to the new node (provided the new node itself
carries the id). -/
theorem replIdN_of_some (i : Str) (new : XNode)
    (hNew : getByIdN i new = some new) :
    ∀ n : XNode, (getByIdN i n).isSome = true →
      (replIdN i new n).2 = true
      ∧ getByIdN i (replIdN i new n).1 = some new := by
  refine xNodeInd
    (fun n => (getByIdN i n).isSome = true →
      (replIdN i new n).2 = true ∧ getByIdN i (replIdN i new n).1 = some new)
    (fun l => (getByIdF i l).isSome = true →
      (replIdF i new l).2 = true ∧ getByIdF i (replIdF i new l).1 = some new)
    ?_ ?_ ?_ ?_
  · intro s h
    simp [getByIdN] at h
  · intro t a kids ih h
    rw [getByIdN_elem] at h
    by_cases hattr : getAttr a idKey = some i
    · rw [replIdN_elem, if_pos hattr]
      exact ⟨rfl, hNew⟩
    · rw [if_neg hattr] at h
      have hk := ih h
      rw [replIdN_elem, if_neg hattr]
      refine ⟨hk.1, ?_⟩
      rw [getByIdN_elem, if_neg hattr]
      exact hk.2
  · intro h
    simp [getByIdF] at h
  · intro n rest ihn ihr h
    rw [getByIdF_cons] at h
    cases hn : getByIdN i n with
    | some r =>
        have hk := ihn (by rw [hn]; rfl)
        rw [replIdF_cons, if_pos hk.1]
        refine ⟨rfl, ?_⟩
        rw [getByIdF_cons, hk.2]
    | none =>
        rw [hn] at h
        have hk := ihr h
        rw [replIdF_cons, replIdN_of_none i new n hn]
        simp only [Bool.false_eq_true, if_neg, not_false_eq_true]
        refine ⟨hk.1, ?_⟩
        rw [getByIdF_cons, hn]
        exact hk.2

/-- Forest version of `replIdN_of_some`: the replaced document resolves the id
to the new node. -/
theorem replIdF_of_some (i : Str) (new : XNode)
    (hNew : getByIdN i new = some new) :
    ∀ l : List XNode, (getByIdF i l).isSome = true →
      (replIdF i new l).2 = true
      ∧ getByIdF i (replIdF i new l).1 = some new := by
  intro l
  induction l with
  | nil => intro h; simp [getByIdF] at h
  | cons n rest ih =>
      intro h
      rw [getByIdF_cons] at h
      cases hn : getByIdN i n with
      | some r =>
          have hk := replIdN_of_some i new hNew n (by rw [hn]; rfl)
          rw [replIdF_cons, if_pos hk.1]
          refine ⟨rfl, ?_⟩
          rw [getByIdF_cons, hk.2]
      | none =>
          rw [hn] at h
          have hk := ih h
          rw [replIdF_cons, replIdN_of_none i new n hn]
          simp only [Bool.false_eq_true, if_neg, not_false_eq_true]
          refine ⟨hk.1, ?_⟩
          rw [getByIdF_cons, hn]
          exact hk.2

/-- The replacement flag is set whenever the id resolves (no assumption on
the new node). -/
theorem replIdF_flag (i : Str) (new : XNode) :
    ∀ l : List XNode, (getByIdF i l).isSome = true →
      (replIdF i new l).2 = true := by
  refine xForestInd
    (fun n => (getByIdN i n).isSome = true → (replIdN i new n).2 = true)
    (fun l => (getByIdF i l).isSome = true → (replIdF i new l).2 = true)
    ?_ ?_ ?_ ?_
  · intro s h
    simp [getByIdN] at h
  · intro t a kids ih h
    rw [getByIdN_elem] at h
    by_cases hattr : getAttr a idKey = some i
    · rw [replIdN_elem, if_pos hattr]
    · rw [if_neg hattr] at h
      rw [replIdN_elem, if_neg hattr]
      exact ih h
  · intro h
    simp [getByIdF] at h
  · intro n rest ihn ihr h
    rw [getByIdF_cons] at h
    cases hn : getByIdN i n with
    | some r =>
        have hk := ihn (by rw [hn]; rfl)
        rw [replIdF_cons, if_pos hk]
    | none =>
        rw [hn] at h
        rw [replIdF_cons, replIdN_of_none i new n hn]
        simp only [Bool.false_eq_true, if_neg, not_false_eq_true]
        exact ihr h

/-- Surgical-replacement relation: `doc'` is `doc` with exactly the first
element (in document order) whose `id` attribute is `i` replaced by `new`,
every other node untouched.  It formalises "the element at the original tree
position". -/
inductive ReplacedFirstById (i : Str) (new : XNode) :
    List XNode → List XNode → Prop where
  | here (t : Str) (a : Attrs) (kids rest : List XNode) :
      getAttr a idKey = some i →
      ReplacedFirstById i new (XNode.elem t a kids :: rest) (new :: rest)
  | nest (t : Str) (a : Attrs) (kids kids' rest : List XNode) :
      ¬ getAttr a idKey = some i →
      ReplacedFirstById i new kids kids' →
      ReplacedFirstById i new (XNode.elem t a kids :: rest)
        (XNode.elem t a kids' :: rest)
  | skipElem (t : Str) (a : Attrs) (kids rest rest' : List XNode) :
      ¬ getAttr a idKey = some i → getByIdF i kids = none →
      ReplacedFirstById i new rest rest' →
      ReplacedFirstById i new (XNode.elem t a kids :: rest)
        (XNode.elem t a kids :: rest')
  | skipTxt (s : Str) (rest rest' : List XNode) :
      ReplacedFirstById i new rest rest' →
      ReplacedFirstById i new (XNode.txt s :: rest) (XNode.txt s :: rest')

/-- The replacement function realises the surgical-replacement relation
whenever the id resolves. -/
theorem replaceById_rel (i : Str) (new : XNode) :
    ∀ l : List XNode, (getByIdF i l).isSome = true →
      ReplacedFirstById i new l (replIdF i new l).1 := by
  refine xForestInd
    (fun n => ∀ t a kids, n = XNode.elem t a kids →
      (getByIdF i kids).isSome = true →
      ReplacedFirstById i new kids (replIdF i new kids).1)
    (fun l => (getByIdF i l).isSome = true →
      ReplacedFirstById i new l (replIdF i new l).1) ?_ ?_ ?_ ?_
  · intro s t a kids h
    cases h
  · intro t a kids ih t' a' kids' heq h
    injection heq with h1 h2 h3
    subst h3
    exact ih h
  · intro h
    simp [getByIdF] at h
  · intro n rest ihn ihr h
    rw [getByIdF_cons] at h
    cases hn : getByIdN i n with
    | some r =>
        cases n with
        | txt s => simp [getByIdN] at hn
        | elem t a kids =>
            rw [getByIdN_elem] at hn
            by_cases hattr : getAttr a idKey = some i
            · have hres : replIdF i new (XNode.elem t a kids :: rest)
                  = (new :: rest, true) := by
                rw [replIdF_cons, replIdN_elem, if_pos hattr]
                simp
              rw [hres]
              exact ReplacedFirstById.here t a kids rest hattr
            · rw [if_neg hattr] at hn
              have hkids : (getByIdF i kids).isSome = true := by rw [hn]; rfl
              have hflag : (replIdN i new (XNode.elem t a kids)).2 = true := by
                rw [replIdN_elem, if_neg hattr]
                exact (replIdF_flag i new kids hkids)
              have hrelk := ihn t a kids rfl hkids
              have hres : replIdF i new (XNode.elem t a kids :: rest)
                  = ((replIdN i new (XNode.elem t a kids)).1 :: rest, true) := by
                rw [replIdF_cons, if_pos hflag]
              rw [hres, replIdN_elem, if_neg hattr]
              exact ReplacedFirstById.nest t a kids _ rest hattr hrelk
    | none =>
        rw [hn] at h
        have hrel := ihr h
        have hres : replIdF i new (n :: rest)
            = (n :: (replIdF i new rest).1, (replIdF i new rest).2) := by
          rw [replIdF_cons, replIdN_of_none i new n hn]
          simp
        rw [hres]
        cases n with
        | txt s =>
            exact ReplacedFirstById.skipTxt s rest _ hrel
        | elem t a kids =>
            rw [getByIdN_elem] at hn
            by_cases hattr : getAttr a idKey = some i
            · rw [if_pos hattr] at hn; cases hn
            · rw [if_neg hattr] at hn
              exact ReplacedFirstById.skipElem t a kids rest _ hattr hn hrel

/-- The geometry-copying fold leaves keys outside the list untouched. -/
theorem copiedFold_not_mem (a : Attrs) :
    ∀ (keys : List Str) (acc : Attrs) (k : Str), k ∉ keys →
      getAttr (keys.foldl (fun acc k => match getAttr a k with
        | some av => setAttr acc k av
        | none => acc) acc) k = getAttr acc k := by
  intro keys
  induction keys with
  | nil => intro acc k _h; rfl
  | cons k0 rest ih =>
      intro acc k h
      have hne : k ≠ k0 := fun hx => h (hx ▸ List.mem_cons_self k0 rest)
      have hnotin : k ∉ rest := fun hx => h (List.mem_cons_of_mem _ hx)
      simp only [List.foldl]
      cases hg : getAttr a k0 with
      | none => exact ih _ k hnotin
      | some av => rw [ih _ k hnotin, getAttr_setAttr_other acc k0 k av hne]

/-- The geometry-copying fold copies a present attribute verbatim. -/
theorem copiedFold_mem (a : Attrs) :
    ∀ (keys : List Str) (acc : Attrs) (k av : Str), k ∈ keys → keys.Nodup →
      getAttr a k = some av →
      getAttr (keys.foldl (fun acc k => match getAttr a k with
        | some av => setAttr acc k av
        | none => acc) acc) k = some av := by
  intro keys
  induction keys with
  | nil => intro acc k av h _ _; cases h
  | cons k0 rest ih =>
      intro acc k av hmem hnd hget
      have hnd' : rest.Nodup := (List.nodup_cons.mp hnd).2
      rcases List.mem_cons.mp hmem with heq | hin
      · subst heq
        have hnotin : k ∉ rest := (List.nodup_cons.mp hnd).1
        simp only [List.foldl, hget]
        rw [copiedFold_not_mem a rest _ k hnotin]
        exact getAttr_setAttr_same acc k av
      · simp only [List.foldl]
        cases hg : getAttr a k0 with
        | none => exact ih _ k av hin hnd' hget
        | some av0 => exact ih _ k av hin hnd' hget

/-- C3 — shape-to-image promotion for rectangles: a rect bound to an
image-reference value is replaced, at its original tree position (the
surgical-replacement relation), by an image element; a lookup by the original
id afterwards returns the new image element, whose `href` is the value and
which carries every geometry attribute (`x`, `y`, `width`, `height`, `rx`,
`ry`) verbatim from the rect when the rect had it. -/
theorem c3_rect_promotion (bbox : BBoxFn) (doc : List XNode) (row : Row)
    (svgId hdr v t : Str) (a : Attrs) (kids : List XNode)
    (hv : lookupRow row hdr = some v) (hne : v ≠ [])
    (hel : getByIdF svgId doc = some (XNode.elem t a kids))
    (htag : lowerStr t = "rect".toList)
    (hurl : isImageUrl v = true) :
    applyEntry bbox doc row svgId hdr
      = some (replaceById doc svgId (promoteRect v a))
    ∧ ReplacedFirstById svgId (promoteRect v a) doc
        (replaceById doc svgId (promoteRect v a))
    ∧ getByIdF svgId (replaceById doc svgId (promoteRect v a))
        = some (promoteRect v a)
    ∧ tagOfN (promoteRect v a) = "image".toList
    ∧ getAttr (attrsOfN (promoteRect v a)) hrefKey = some v
    ∧ getAttr (attrsOfN (promoteRect v a)) idKey = some svgId
    ∧ ∀ k, k ∈ geomKeys → ∀ av, getAttr a k = some av →
        getAttr (attrsOfN (promoteRect v a)) k = some av := by
  have hid : getAttr a idKey = some svgId := getById_attr svgId doc t a kids hel
  have hemp : v.isEmpty = false := by
    cases v with
    | nil => exact absurd rfl hne
    | cons c cs => rfl
  have hattrs : attrsOfN (promoteRect v a)
      = setAttr (setAttr (setAttr
          (geomKeys.foldl (fun acc k => match getAttr a k with
            | some av => setAttr acc k av
            | none => acc) [])
          parKey meetVal) hrefKey v) idKey ((getAttr a idKey).getD []) := rfl
  have hidval : (getAttr a idKey).getD [] = svgId := by rw [hid]; rfl
  have hidattr : getAttr (attrsOfN (promoteRect v a)) idKey = some svgId := by
    rw [hattrs, hidval]
    exact getAttr_setAttr_same _ idKey svgId
  have hNew : getByIdN svgId (promoteRect v a) = some (promoteRect v a) := by
    have : promoteRect v a = XNode.elem "image".toList
        (attrsOfN (promoteRect v a)) [] := rfl
    rw [this, getByIdN_elem, if_pos hidattr]
  have hsome : (getByIdF svgId doc).isSome = true := by rw [hel]; rfl
  refine ⟨?_, replaceById_rel svgId (promoteRect v a) doc hsome,
    (replIdF_of_some svgId (promoteRect v a) hNew doc hsome).2, rfl, ?_, hidattr, ?_⟩
  · simp [applyEntry, hv, hemp, hel, htag, mutateShapeNode, hurl]
    exact fun hmem => absurd (by decide) hmem
  · rw [hattrs, hidval]
    rw [getAttr_setAttr_other _ idKey hrefKey svgId (by decide)]
    exact getAttr_setAttr_same _ hrefKey v
  · intro k hk av hav
    have hgeom : ∀ k0, k0 ∈ geomKeys →
        k0 ≠ parKey ∧ k0 ≠ hrefKey ∧ k0 ≠ idKey := by decide
    have hkne := hgeom k hk
    rw [hattrs, hidval]
    rw [getAttr_setAttr_other _ idKey k svgId hkne.2.2]
    rw [getAttr_setAttr_other _ hrefKey k v hkne.2.1]
    rw [getAttr_setAttr_other _ parKey k meetVal hkne.1]
    exact copiedFold_mem a geomKeys [] k av hk (by decide) hav

/-- Document of the C3 witness: a rect with id and one geometry attribute. -/
def c3doc : List XNode :=
  [XNode.elem "svg".toList []
    [XNode.elem "rect".toList [(idKey, "r1".toList), ("x".toList, "5".toList)] []]]

/-- Witness for C3 at a concrete rect bound to a png reference. -/
theorem c3_rect_promotion_witness :
    applyEntry (fun _ => none) c3doc [("img".toList, "p.png".toList)]
        "r1".toList "img".toList
      = some (replaceById c3doc "r1".toList
          (promoteRect "p.png".toList [(idKey, "r1".toList), ("x".toList, "5".toList)]))
    ∧ ReplacedFirstById "r1".toList
        (promoteRect "p.png".toList [(idKey, "r1".toList), ("x".toList, "5".toList)])
        c3doc
        (replaceById c3doc "r1".toList
          (promoteRect "p.png".toList [(idKey, "r1".toList), ("x".toList, "5".toList)]))
    ∧ getByIdF "r1".toList
        (replaceById c3doc "r1".toList
          (promoteRect "p.png".toList [(idKey, "r1".toList), ("x".toList, "5".toList)]))
      = some (promoteRect "p.png".toList
          [(idKey, "r1".toList), ("x".toList, "5".toList)])
    ∧ tagOfN (promoteRect "p.png".toList
        [(idKey, "r1".toList), ("x".toList, "5".toList)]) = "image".toList
    ∧ getAttr (attrsOfN (promoteRect "p.png".toList
        [(idKey, "r1".toList), ("x".toList, "5".toList)])) hrefKey
      = some "p.png".toList
    ∧ getAttr (attrsOfN (promoteRect "p.png".toList
        [(idKey, "r1".toList), ("x".toList, "5".toList)])) idKey
      = some "r1".toList
    ∧ ∀ k, k ∈ geomKeys → ∀ av,
        getAttr [(idKey, "r1".toList), ("x".toList, "5".toList)] k = some av →
        getAttr (attrsOfN (promoteRect "p.png".toList
          [(idKey, "r1".toList), ("x".toList, "5".toList)])) k = some av :=
  c3_rect_promotion (fun _ => none) c3doc [("img".toList, "p.png".toList)]
    "r1".toList "img".toList "p.png".toList "rect".toList
    [(idKey, "r1".toList), ("x".toList, "5".toList)] [] rfl (by decide) rfl rfl rfl

/-- A text-bearing descendant is clean when none of the group mutator's four
checks fires on it: no specific and no generic token in its markup-preserving
content nor in its plain text. -/
def childClean (hdr : Str) (n : XNode) : Bool :=
  !(hasSpec hdr (serializeNodes (kidsOfN n))) && !(hasGen (serializeNodes (kidsOfN n)))
    && !(hasSpec hdr (textContentF (kidsOfN n))) && !(hasGen (textContentF (kidsOfN n)))

mutual
/-- No `text`/`tspan` element in the subtree (node included) contains any
placeholder token, in markup or plain text. -/
def noTokN (hdr : Str) : XNode → Bool
  | XNode.txt _ => true
  | XNode.elem t a kids =>
      (!(isTDTag t) || childClean hdr (XNode.elem t a kids)) && noTokF hdr kids
/-- Forest version of `noTokN`. -/
def noTokF (hdr : Str) : List XNode → Bool
  | [] => true
  | n :: rest => noTokN hdr n && noTokF hdr rest
end

/-- Step equation of `noTokN` on an element. -/
theorem noTokN_elem (hdr t : Str) (a : Attrs) (kids : List XNode) :
    noTokN hdr (XNode.elem t a kids)
      = ((!(isTDTag t) || childClean hdr (XNode.elem t a kids))
          && noTokF hdr kids) := rfl

/-- Step equation of `noTokF` on a non-empty forest. -/
theorem noTokF_cons (hdr : Str) (n : XNode) (rest : List XNode) :
    noTokF hdr (n :: rest) = (noTokN hdr n && noTokF hdr rest) := rfl

/-- Step equation of `groupPassN` on an element. -/
theorem groupPassN_elem (hdr val t : Str) (a : Attrs) (kids : List XNode) :
    groupPassN hdr val (XNode.elem t a kids)
      = (if isTDTag t = true then
          match tryMutateChild hdr val (XNode.elem t a kids) with
          | some n2 => (n2, true)
          | none => (XNode.elem t a (groupPassF hdr val kids).1,
              (groupPassF hdr val kids).2)
         else (XNode.elem t a (groupPassF hdr val kids).1,
              (groupPassF hdr val kids).2)) := rfl

/-- Step equation of `groupPassF` on a non-empty forest. -/
theorem groupPassF_cons (hdr val : Str) (n : XNode) (rest : List XNode) :
    groupPassF hdr val (n :: rest)
      = ((groupPassN hdr val n).1 :: (groupPassF hdr val rest).1,
          (groupPassN hdr val n).2 || (groupPassF hdr val rest).2) := rfl

/-- On a clean text-bearing element none of the four cascading checks fires. -/
theorem tryMutateChild_none (hdr val t : Str) (a : Attrs) (kids : List XNode)
    (h : childClean hdr (XNode.elem t a kids) = true) :
    tryMutateChild hdr val (XNode.elem t a kids) = none := by
  unfold childClean at h
  simp only [kidsOfN, Bool.and_eq_true, Bool.not_eq_true'] at h
  simp [tryMutateChild, h.1.1.1, h.1.1.2, h.1.2, h.2]

/-- The group sweep over a token-free subtree mutates nothing and reports no
update. -/
theorem groupPassN_clean (hdr val : Str) :
    ∀ n : XNode, noTokN hdr n = true → groupPassN hdr val n = (n, false) := by
  refine xNodeInd
    (fun n => noTokN hdr n = true → groupPassN hdr val n = (n, false))
    (fun l => noTokF hdr l = true → groupPassF hdr val l = (l, false)) ?_ ?_ ?_ ?_
  · intro s _h
    rfl
  · intro t a kids ih h
    rw [noTokN_elem, Bool.and_eq_true] at h
    have hkids := ih h.2
    rw [groupPassN_elem]
    by_cases htd : isTDTag t = true
    · have hclean : childClean hdr (XNode.elem t a kids) = true := by
        rcases Bool.or_eq_true_iff.mp h.1 with hx | hx
        · rw [htd] at hx; cases hx
        · exact hx
      rw [if_pos htd, tryMutateChild_none hdr val t a kids hclean, hkids]
    · rw [if_neg htd, hkids]
  · intro _h
    rfl
  · intro n rest ihn ihr h
    rw [noTokF_cons, Bool.and_eq_true] at h
    rw [groupPassF_cons, ihn h.1, ihr h.2]
    rfl

/-- Forest version of `groupPassN_clean`. -/
theorem groupPassF_clean (hdr val : Str) :
    ∀ l : List XNode, noTokF hdr l = true → groupPassF hdr val l = (l, false) := by
  intro l
  induction l with
  | nil => intro _h; rfl
  | cons n rest ih =>
      intro h
      rw [noTokF_cons, Bool.and_eq_true] at h
      rw [groupPassF_cons, groupPassN_clean hdr val n h.1, ih h.2]
      rfl

/-- Step equation of `hasTDN` on an element. -/
theorem hasTDN_elem (t : Str) (a : Attrs) (kids : List XNode) :
    hasTDN (XNode.elem t a kids) = (isTDTag t || hasTDF kids) := rfl

/-- Step equation of `hasTDF` on a non-empty forest. -/
theorem hasTDF_cons (n : XNode) (rest : List XNode) :
    hasTDF (n :: rest) = (hasTDN n || hasTDF rest) := rfl

/-- Step equation of `setFirstTDN` on an element. -/
theorem setFirstTDN_elem (v t : Str) (a : Attrs) (kids : List XNode) :
    setFirstTDN v (XNode.elem t a kids)
      = (if isTDTag t = true then (XNode.elem t a [XNode.txt v], true)
         else (XNode.elem t a (setFirstTDF v kids).1, (setFirstTDF v kids).2)) := rfl

/-- Step equation of `setFirstTDF` on a non-empty forest. -/
theorem setFirstTDF_cons (v : Str) (n : XNode) (rest : List XNode) :
    setFirstTDF v (n :: rest)
      = (if (setFirstTDN v n).2 = true then ((setFirstTDN v n).1 :: rest, true)
         else (n :: (setFirstTDF v rest).1, (setFirstTDF v rest).2)) := rfl

/-- Without text-bearing descendants the fallback write does nothing. -/
theorem setFirstTDN_of_no (v : Str) :
    ∀ n : XNode, hasTDN n = false → setFirstTDN v n = (n, false) := by
  refine xNodeInd
    (fun n => hasTDN n = false → setFirstTDN v n = (n, false))
    (fun l => hasTDF l = false → setFirstTDF v l = (l, false)) ?_ ?_ ?_ ?_
  · intro s _h
    rfl
  · intro t a kids ih h
    rw [hasTDN_elem, Bool.or_eq_false_iff] at h
    rw [setFirstTDN_elem, if_neg (by rw [h.1]; exact Bool.false_ne_true), ih h.2]
  · intro _h
    rfl
  · intro n rest ihn ihr h
    rw [hasTDF_cons, Bool.or_eq_false_iff] at h
    rw [setFirstTDF_cons, ihn h.1, ihr h.2]
    simp

/-- Forest version of `setFirstTDN_of_no`. -/
theorem setFirstTDF_of_no (v : Str) :
    ∀ l : List XNode, hasTDF l = false → setFirstTDF v l = (l, false) := by
  intro l
  induction l with
  | nil => intro _h; rfl
  | cons n rest ih =>
      intro h
      rw [hasTDF_cons, Bool.or_eq_false_iff] at h
      rw [setFirstTDF_cons, setFirstTDN_of_no v n h.1, ih h.2]
      simp

/-- Surgical first-text-descendant replacement: `l'` is `l` with exactly the
first `text`/`tspan` element in pre-order having its children replaced by the
single text node `v`, everything else untouched. -/
inductive ReplacedFirstTD (v : Str) : List XNode → List XNode → Prop where
  | here (t : Str) (a : Attrs) (kids rest : List XNode) :
      isTDTag t = true →
      ReplacedFirstTD v (XNode.elem t a kids :: rest)
        (XNode.elem t a [XNode.txt v] :: rest)
  | nest (t : Str) (a : Attrs) (kids kids' rest : List XNode) :
      isTDTag t = false →
      ReplacedFirstTD v kids kids' →
      ReplacedFirstTD v (XNode.elem t a kids :: rest)
        (XNode.elem t a kids' :: rest)
  | skipElem (t : Str) (a : Attrs) (kids rest rest' : List XNode) :
      isTDTag t = false → hasTDF kids = false →
      ReplacedFirstTD v rest rest' →
      ReplacedFirstTD v (XNode.elem t a kids :: rest)
        (XNode.elem t a kids :: rest')
  | skipTxt (s : Str) (rest rest' : List XNode) :
      ReplacedFirstTD v rest rest' →
      ReplacedFirstTD v (XNode.txt s :: rest) (XNode.txt s :: rest')

/-- The fallback write realises the surgical replacement whenever a
text-bearing descendant exists. -/
theorem setFirstTD_rel (v : Str) :
    ∀ l : List XNode, hasTDF l = true →
      (setFirstTDF v l).2 = true ∧ ReplacedFirstTD v l (setFirstTDF v l).1 := by
  refine xForestInd
    (fun n => ∀ t a kids, n = XNode.elem t a kids → isTDTag t = false →
      hasTDF kids = true →
      (setFirstTDF v kids).2 = true ∧ ReplacedFirstTD v kids (setFirstTDF v kids).1)
    (fun l => hasTDF l = true →
      (setFirstTDF v l).2 = true ∧ ReplacedFirstTD v l (setFirstTDF v l).1)
    ?_ ?_ ?_ ?_
  · intro s t a kids h
    cases h
  · intro t a kids ih t' a' kids' heq _htd h
    injection heq with h1 h2 h3
    subst h3
    exact ih h
  · intro h
    cases h
  · intro n rest ihn ihr h
    rw [hasTDF_cons] at h
    cases n with
    | txt s =>
        simp only [hasTDN] at h
        have hrest : hasTDF rest = true := by simpa using h
        have hk := ihr hrest
        rw [setFirstTDF_cons]
        have hn0 : setFirstTDN v (XNode.txt s) = (XNode.txt s, false) := rfl
        rw [hn0]
        simp only [Bool.false_eq_true, if_neg, not_false_eq_true]
        exact ⟨hk.1, ReplacedFirstTD.skipTxt s rest _ hk.2⟩
    | elem t a kids =>
        by_cases htd : isTDTag t = true
        · have hres : setFirstTDF v (XNode.elem t a kids :: rest)
              = (XNode.elem t a [XNode.txt v] :: rest, true) := by
            rw [setFirstTDF_cons, setFirstTDN_elem, if_pos htd]
            rfl
          rw [hres]
          exact ⟨rfl, ReplacedFirstTD.here t a kids rest htd⟩
        · have htd' : isTDTag t = false := by
            cases hx : isTDTag t with
            | false => rfl
            | true => exact absurd hx htd
          rw [hasTDN_elem, htd'] at h
          simp only [Bool.false_or] at h
          by_cases hkids : hasTDF kids = true
          · have hk := ihn t a kids rfl htd' hkids
            have hres : setFirstTDF v (XNode.elem t a kids :: rest)
                = (XNode.elem t a (setFirstTDF v kids).1 :: rest, true) := by
              rw [setFirstTDF_cons, setFirstTDN_elem, if_neg htd]
              have hcond : (XNode.elem t a (setFirstTDF v kids).1,
                  (setFirstTDF v kids).2).2 = true := hk.1
              rw [if_pos hcond]
            rw [hres]

            exact ⟨rfl, ReplacedFirstTD.nest t a kids _ rest htd' hk.2⟩
          · have hkids' : hasTDF kids = false := by
              cases hx : hasTDF kids with
              | false => rfl
              | true => exact absurd hx hkids
            rw [hkids'] at h
            simp only [Bool.false_or] at h
            have hrest : hasTDF rest = true := h
            have hk := ihr hrest
            have hres : setFirstTDF v (XNode.elem t a kids :: rest)
                = (XNode.elem t a kids :: (setFirstTDF v rest).1,
                    (setFirstTDF v rest).2) := by
              rw [setFirstTDF_cons, setFirstTDN_elem, if_neg htd,
                setFirstTDF_of_no v kids hkids']
              rfl
            rw [hres]
            exact ⟨hk.1, ReplacedFirstTD.skipElem t a kids rest _ htd' hkids' hk.2⟩

/-- C6 — group mutator fallback: on a group none of whose text-bearing
descendants contains any placeholder token, mutation overwrites the plain
text of the first text-bearing descendant (in document order) with the full
value and leaves every other node untouched (the surgical relation); a group
with no text-bearing descendants is left entirely unchanged. -/
theorem c6_group_fallback (hdr val t : Str) (a : Attrs) (kids : List XNode)
    (hclean : noTokF hdr kids = true) :
    (hasTDF kids = true →
      groupMutate hdr val t a kids = XNode.elem t a (setFirstTDF val kids).1
      ∧ ReplacedFirstTD val kids (setFirstTDF val kids).1)
    ∧ (hasTDF kids = false → groupMutate hdr val t a kids = XNode.elem t a kids) := by
  have hgp := groupPassF_clean hdr val kids hclean
  constructor
  · intro htd
    have hrel := setFirstTD_rel val kids htd
    constructor
    · unfold groupMutate
      rw [hgp]
      simp only [Bool.false_eq_true, if_neg, not_false_eq_true]
      rw [if_pos htd]
    · exact hrel.2
  · intro htd
    unfold groupMutate
    rw [hgp]
    simp only [Bool.false_eq_true, if_neg, not_false_eq_true]
    rw [htd]
    simp

/-- Children of the C6 witness group: two token-free text elements. -/
def c6kids : List XNode :=
  [XNode.elem "text".toList [] [XNode.txt "aa".toList],
   XNode.elem "text".toList [] [XNode.txt "bb".toList]]

/-- Witness for C6 at a group with two token-free text children. -/
theorem c6_group_fallback_witness :
    noTokF "name".toList c6kids = true
    ∧ hasTDF c6kids = true
    ∧ groupMutate "name".toList "VAL".toList "g".toList [] c6kids
        = XNode.elem "g".toList [] (setFirstTDF "VAL".toList c6kids).1
    ∧ ReplacedFirstTD "VAL".toList c6kids (setFirstTDF "VAL".toList c6kids).1 := by
  have h := (c6_group_fallback "name".toList "VAL".toList "g".toList [] c6kids rfl).1 rfl
  exact ⟨rfl, rfl, h.1, h.2⟩

/-- Decomposition of a text fragment into literal pieces and placeholder
tokens; `tok inner` renders as the token with delimiters around `inner`.
The C2 hypothesis "the content contains both tokens" is phrased as the
existence of such a decomposition of the element's markup-preserving
content. -/
inductive Piece where
  | plain : Str → Piece
  | tok : Str → Piece
deriving DecidableEq, Repr

/-- Rendering of one piece back into text. -/
def renderPiece : Piece → Str
  | Piece.plain s => s
  | Piece.tok inner => '{' :: '{' :: (inner ++ ['}', '}'])

/-- Rendering of a piece list. -/
def renderPieces : List Piece → Str
  | [] => []
  | p :: ps => renderPiece p ++ renderPieces ps

/-- Whitespace trimming on both ends (the specific regex allows whitespace
inside the delimiters). -/
def trimWs (s : Str) : Str :=
  ((s.dropWhile isWsChar).reverse.dropWhile isWsChar).reverse

/-- Character without placeholder delimiters. -/
def braceFreeChar (c : Char) : Bool := !(c = '{') && !(c = '}')

/-- String without placeholder delimiters. -/
def braceFree (s : Str) : Bool := s.all braceFreeChar

/-- ASCII letter, digit or underscore: the characters of a plain column name,
free of regex metacharacters and whitespace. -/
def simpleChar (c : Char) : Bool :=
  (65 ≤ c.toNat && c.toNat ≤ 90) || (97 ≤ c.toNat && c.toNat ≤ 122)
    || (48 ≤ c.toNat && c.toNat ≤ 57) || c = '_'

/-- Non-empty plain column name. -/
def isSimpleName (s : Str) : Bool := !s.isEmpty && s.all simpleChar

/-- Is this piece a specific token for the bound column? -/
def isSpecPiece (hdr : Str) : Piece → Bool
  | Piece.tok inner => trimWs inner = hdr
  | Piece.plain _ => false

/-- Piecewise effect claimed for the text mutator: each specific token for
the bound column becomes the literal value, everything else is untouched. -/
def substPiece (hdr val : Str) : Piece → Piece
  | Piece.tok inner =>
      if trimWs inner = hdr then Piece.plain val else Piece.tok inner
  | Piece.plain s => Piece.plain s

/-- Well-formed piece: literal pieces carry no delimiter braces (markup and
ordinary text), token interiors are non-empty and brace-free. -/
def wfPiece : Piece → Bool
  | Piece.plain s => braceFree s
  | Piece.tok inner => !inner.isEmpty && braceFree inner

/-- A plain-name character is not whitespace. -/
theorem simpleChar_not_ws (c : Char) (h : simpleChar c = true) :
    isWsChar c = false := by
  by_cases h1 : c = ' '
  · subst h1; exact absurd h (by decide)
  · by_cases h2 : c = '\t'
    · subst h2; exact absurd h (by decide)
    · by_cases h3 : c = '\n'
      · subst h3; exact absurd h (by decide)
      · by_cases h4 : c = '\r'
        · subst h4; exact absurd h (by decide)
        · simp [isWsChar, h1, h2, h3, h4]

/-- A plain-name character is not a delimiter brace. -/
theorem simpleChar_not_brace (c : Char) (h : simpleChar c = true) :
    braceFreeChar c = true := by
  by_cases h1 : c = '{'
  · subst h1; exact absurd h (by decide)
  · by_cases h2 : c = '}'
    · subst h2; exact absurd h (by decide)
    · simp [braceFreeChar, h1, h2]

/-- Step equation of the specific-token matcher on two or more characters. -/
theorem matchSpecAt_cons₂ (hdr : Str) (c1 c2 : Char) (rest : Str) :
    matchSpecAt hdr (c1 :: c2 :: rest)
      = (if c1 = '{' && c2 = '{' then
          if hdr.isPrefixOf (rest.dropWhile isWsChar) then
            match ((rest.dropWhile isWsChar).drop hdr.length).dropWhile isWsChar with
            | d1 :: d2 :: r3 => if d1 = '}' && d2 = '}' then some r3 else none
            | _ => none
          else none
         else none) := rfl

/-- Any match of the specific token consumes at least four characters. -/
theorem matchSpecAt_length (hdr : Str) :
    ∀ (l r : Str), matchSpecAt hdr l = some r → r.length + 4 ≤ l.length := by
  intro l r h
  cases l with
  | nil => cases h
  | cons c1 tl =>
      cases tl with
      | nil => cases h
      | cons c2 rest =>
          rw [matchSpecAt_cons₂] at h
          have h1 : (rest.dropWhile isWsChar).length ≤ rest.length :=
            (List.dropWhile_suffix _).length_le
          have h2 : (((rest.dropWhile isWsChar).drop hdr.length).dropWhile
              isWsChar).length
              ≤ ((rest.dropWhile isWsChar).drop hdr.length).length :=
            (List.dropWhile_suffix _).length_le
          have h3 : (((rest.dropWhile isWsChar).drop hdr.length)).length
              ≤ (rest.dropWhile isWsChar).length := by
            rw [List.length_drop]
            omega
          by_cases hb : (c1 = '{' && c2 = '{') = true
          · rw [if_pos hb] at h
            by_cases hp : hdr.isPrefixOf (rest.dropWhile isWsChar) = true
            · rw [if_pos hp] at h
              cases heq : ((rest.dropWhile isWsChar).drop hdr.length).dropWhile
                  isWsChar with
              | nil => rw [heq] at h; cases h
              | cons d1 tl2 =>
                  cases tl2 with
                  | nil => rw [heq] at h; cases h
                  | cons d2 r3 =>
                      rw [heq] at h
                      have h' : (if d1 = '}' && d2 = '}' then some r3 else none)
                          = some r := h
                      by_cases hd : (d1 = '}' && d2 = '}') = true
                      · rw [if_pos hd] at h'
                        cases h'
                        have h4 : (d1 :: d2 :: r).length
                            = (((rest.dropWhile isWsChar).drop
                                hdr.length).dropWhile isWsChar).length := by
                          rw [heq]
                        simp only [List.length_cons] at h4 ⊢
                        omega
                      · rw [if_neg hd] at h'; cases h'
            · rw [if_neg hp] at h; cases h
          · rw [if_neg hb] at h; cases h

/-- The fuelled literal scanner on the empty string. -/
theorem replaceSpecLitF_nil (hdr val : Str) :
    ∀ f, replaceSpecLitF hdr val f [] = [] := by
  intro f
  cases f with
  | zero => rfl
  | succ g => rfl

/-- Step equation of the fuelled replacement. -/
theorem replaceSpecLitF_cons (hdr val : Str) (f : Nat) (c : Char) (rest : Str) :
    replaceSpecLitF hdr val (f + 1) (c :: rest)
      = (match matchSpecAt hdr (c :: rest) with
         | some r3 => val ++ replaceSpecLitF hdr val f r3
         | none => c :: replaceSpecLitF hdr val f rest) := rfl

/-- Fuel irrelevance of the literal scanner above the input length. -/
theorem replaceSpecLitF_fuel (hdr val : Str) :
    ∀ (f1 : Nat) (f2 : Nat) (l : Str), l.length ≤ f1 → l.length ≤ f2 →
      replaceSpecLitF hdr val f1 l = replaceSpecLitF hdr val f2 l := by
  intro f1
  induction f1 with
  | zero =>
      intro f2 l h1 _h2
      have : l = [] := List.length_eq_zero.mp (Nat.le_zero.mp h1)
      subst this
      rw [replaceSpecLitF_nil, replaceSpecLitF_nil]
  | succ g ih =>
      intro f2 l h1 h2
      cases l with
      | nil => rw [replaceSpecLitF_nil, replaceSpecLitF_nil]
      | cons c rest =>
          cases f2 with
          | zero => simp at h2
          | succ g2 =>
              rw [replaceSpecLitF_cons, replaceSpecLitF_cons]
              cases hm : matchSpecAt hdr (c :: rest) with
              | some r3 =>
                  have hlen := matchSpecAt_length hdr _ _ hm
                  simp only [List.length_cons] at hlen h1 h2
                  show val ++ replaceSpecLitF hdr val g r3
                      = val ++ replaceSpecLitF hdr val g2 r3
                  rw [ih g2 r3 (by omega) (by omega)]
              | none =>
                  simp only [List.length_cons] at h1 h2
                  show c :: replaceSpecLitF hdr val g rest
                      = c :: replaceSpecLitF hdr val g2 rest
                  rw [ih g2 rest (by omega) (by omega)]

/-- Step equation of `replaceSpecLit` at a match. -/
theorem replaceSpecLit_cons_match (hdr val : Str) (c : Char) (rest r3 : Str)
    (h : matchSpecAt hdr (c :: rest) = some r3) :
    replaceSpecLit hdr val (c :: rest) = val ++ replaceSpecLit hdr val r3 := by
  unfold replaceSpecLit
  have hl : (c :: rest : Str).length = rest.length + 1 := rfl
  rw [hl, replaceSpecLitF_cons, h]
  have hlen := matchSpecAt_length hdr _ _ h
  simp only [List.length_cons] at hlen
  show val ++ replaceSpecLitF hdr val rest.length r3
      = val ++ replaceSpecLitF hdr val r3.length r3
  rw [replaceSpecLitF_fuel hdr val rest.length r3.length r3 (by omega) (by omega)]

/-- Step equation of `replaceSpecLit` without a match. -/
theorem replaceSpecLit_cons_nomatch (hdr val : Str) (c : Char) (rest : Str)
    (h : matchSpecAt hdr (c :: rest) = none) :
    replaceSpecLit hdr val (c :: rest) = c :: replaceSpecLit hdr val rest := by
  unfold replaceSpecLit
  have hl : (c :: rest : Str).length = rest.length + 1 := rfl
  rw [hl, replaceSpecLitF_cons, h]

/-- Step equation of the specific-token search. -/
theorem hasSpec_cons (hdr : Str) (c : Char) (rest : Str) :
    hasSpec hdr (c :: rest)
      = ((matchSpecAt hdr (c :: rest)).isSome || hasSpec hdr rest) := rfl

/-- Dropping whitespace over an all-whitespace prefix. -/
theorem dropWhile_ws_append (w x : Str) (hw : ∀ c ∈ w, isWsChar c = true) :
    (w ++ x).dropWhile isWsChar = x.dropWhile isWsChar := by
  induction w with
  | nil => rfl
  | cons c cs ih =>
      simp only [List.cons_append, List.dropWhile_cons,
        hw c (List.mem_cons_self c cs), if_pos]
      exact ih (fun d hd => hw d (List.mem_cons_of_mem _ hd))

/-- Dropping whitespace stops at a non-whitespace head. -/
theorem dropWhile_ws_head (c : Char) (l : Str) (h : isWsChar c = false) :
    (c :: l).dropWhile isWsChar = c :: l := by
  simp [List.dropWhile_cons, h]

/-- A string is a Boolean prefix of itself followed by anything. -/
theorem isPrefixOf_self_append (a b : Str) : a.isPrefixOf (a ++ b) = true := by
  induction a with
  | nil => cases b <;> rfl
  | cons c cs ih => simp [List.isPrefixOf, ih]

/-- Step equation of the Boolean prefix test on two cons cells. -/
theorem isPrefixOf_cons₂ (h c : Char) (hs cs : Str) :
    (h :: hs).isPrefixOf (c :: cs) = (h == c && hs.isPrefixOf cs) := rfl

/-- A simple name is untouched by whitespace trimming. -/
theorem trimWs_of_simple (s : Str) (h : isSimpleName s = true) : trimWs s = s := by
  have hs := (Bool.and_eq_true _ _).mp h
  have hall : ∀ c ∈ s, simpleChar c = true := List.all_eq_true.mp hs.2
  cases hmm : s with
  | nil => subst hmm; exact absurd h (by decide)
  | cons c cs =>
      subst hmm
      unfold trimWs
      rw [dropWhile_ws_head c cs
        (simpleChar_not_ws c (hall c (List.mem_cons_self c cs)))]
      cases hrev : (c :: cs).reverse with
      | nil => exact absurd hrev (by simp)
      | cons d ds =>
          have hd : d ∈ (c :: cs : Str) := by
            rw [← List.mem_reverse, hrev]
            exact List.mem_cons_self d ds
          rw [dropWhile_ws_head d ds (simpleChar_not_ws d (hall d hd)),
            ← hrev, List.reverse_reverse]

/-- Padding a trim-invariant nonempty simple name with whitespace on both
sides leaves its trimmed form unchanged. -/
theorem trimWs_pad (w1 w2 hdr : Str) (hh : isSimpleName hdr = true)
    (hw1 : ∀ c ∈ w1, isWsChar c = true) (hw2 : ∀ c ∈ w2, isWsChar c = true) :
    trimWs (w1 ++ hdr ++ w2) = hdr := by
  have hs := (Bool.and_eq_true _ _).mp hh
  have hall : ∀ c ∈ hdr, simpleChar c = true := List.all_eq_true.mp hs.2
  cases hmm : hdr with
  | nil => subst hmm; exact absurd hh (by decide)
  | cons c cs =>
      subst hmm
      unfold trimWs
      rw [List.append_assoc, dropWhile_ws_append w1 _ hw1]
      have hhd : ((c :: cs : Str) ++ w2).dropWhile isWsChar = (c :: cs) ++ w2 := by
        rw [List.cons_append]
        exact dropWhile_ws_head c (cs ++ w2)
          (simpleChar_not_ws c (hall c (List.mem_cons_self c cs)))
      rw [hhd, List.reverse_append, dropWhile_ws_append w2.reverse _
        (fun d hd => hw2 d (List.mem_reverse.mp hd))]
      cases hrev : (c :: cs).reverse with
      | nil => exact absurd hrev (by simp)
      | cons d ds =>
          have hd : d ∈ (c :: cs : Str) := by
            rw [← List.mem_reverse, hrev]
            exact List.mem_cons_self d ds
          rw [dropWhile_ws_head d ds (simpleChar_not_ws d (hall d hd)),
            ← hrev, List.reverse_reverse]

/-- A token interior that trims to the header decomposes as whitespace,
the header, whitespace. -/
theorem trimWs_split (inner hdr : Str) (h : trimWs inner = hdr) :
    ∃ w1 w2, inner = w1 ++ hdr ++ w2
      ∧ (∀ c ∈ w1, isWsChar c = true) ∧ (∀ c ∈ w2, isWsChar c = true) := by
  unfold trimWs at h
  have hcore : (inner.dropWhile isWsChar).reverse.dropWhile isWsChar
      = hdr.reverse := by
    rw [← h, List.reverse_reverse]
  refine ⟨inner.takeWhile isWsChar,
    ((inner.dropWhile isWsChar).reverse.takeWhile isWsChar).reverse, ?_, ?_, ?_⟩
  · have hsplit : (inner.dropWhile isWsChar).reverse.takeWhile isWsChar
        ++ (inner.dropWhile isWsChar).reverse.dropWhile isWsChar
        = (inner.dropWhile isWsChar).reverse :=
      List.takeWhile_append_dropWhile isWsChar (inner.dropWhile isWsChar).reverse
    rw [hcore] at hsplit
    have hcore2 : inner.dropWhile isWsChar
        = hdr ++ ((inner.dropWhile isWsChar).reverse.takeWhile isWsChar).reverse := by
      have := congrArg List.reverse hsplit
      rw [List.reverse_append, List.reverse_reverse, List.reverse_reverse] at this
      exact this.symm
    rw [List.append_assoc, ← hcore2]
    exact (List.takeWhile_append_dropWhile isWsChar inner).symm
  · exact fun c hc => List.mem_takeWhile_imp hc
  · exact fun c hc => List.mem_takeWhile_imp (List.mem_reverse.mp hc)

/-- The specific matcher accepts a rendered specific token and returns exactly
the input following it. -/
theorem matchSpecAt_spec_tok (hdr inner r : Str) (hh : isSimpleName hdr = true)
    (ht : trimWs inner = hdr) :
    matchSpecAt hdr ('{' :: '{' :: (inner ++ '}' :: '}' :: r)) = some r := by
  obtain ⟨w1, w2, hdec, hw1, hw2⟩ := trimWs_split inner hdr ht
  have hs := (Bool.and_eq_true _ _).mp hh
  have hall : ∀ c ∈ hdr, simpleChar c = true := List.all_eq_true.mp hs.2
  cases hmm : hdr with
  | nil => subst hmm; exact absurd hh (by decide)
  | cons c cs =>
      subst hmm
      rw [matchSpecAt_cons₂, if_pos (by decide)]
      have hdrop : (inner ++ '}' :: '}' :: r).dropWhile isWsChar
          = (c :: cs) ++ (w2 ++ '}' :: '}' :: r) := by
        rw [hdec, List.append_assoc, List.append_assoc,
          dropWhile_ws_append w1 _ hw1, List.cons_append]
        exact dropWhile_ws_head c _
          (simpleChar_not_ws c (hall c (List.mem_cons_self c cs)))
      rw [hdrop, if_pos (isPrefixOf_self_append (c :: cs) _),
        List.drop_left (c :: cs) _, dropWhile_ws_append w2 _ hw2,
        dropWhile_ws_head '}' _ (by decide)]
      show (if (decide ('}' = '}') && decide ('}' = '}')) = true
          then some r else none) = some r
      rw [if_pos (by decide)]

/-- The specific matcher fails when the head character is not an opening
brace. -/
theorem matchSpecAt_not_open (hdr : Str) (c : Char) (l : Str) (h : ¬ c = '{') :
    matchSpecAt hdr (c :: l) = none := by
  cases l with
  | nil => rfl
  | cons d tl =>
      rw [matchSpecAt_cons₂, if_neg]
      simp [h]

/-- The specific matcher fails when the second character is not an opening
brace. -/
theorem matchSpecAt_not_open₂ (hdr : Str) (c1 c2 : Char) (l : Str)
    (h : ¬ c2 = '{') :
    matchSpecAt hdr (c1 :: c2 :: l) = none := by
  rw [matchSpecAt_cons₂, if_neg]
  simp [h]

/-- A header of simple characters that is a Boolean prefix of a string
followed by a closing brace is contained in that string. -/
theorem prefix_simple_stops (z : Str) :
    ∀ (hdr core : Str), (∀ c ∈ hdr, simpleChar c = true) →
      hdr.isPrefixOf (core ++ '}' :: z) = true → ∃ u, core = hdr ++ u := by
  intro hdr
  induction hdr with
  | nil => intro core _ _; exact ⟨core, rfl⟩
  | cons h hs ih =>
      intro core hall hp
      cases core with
      | nil =>
          rw [List.nil_append, isPrefixOf_cons₂] at hp
          have := (Bool.and_eq_true _ _).mp hp
          have hh : h = '}' := eq_of_beq this.1
          have := hall h (List.mem_cons_self h hs)
          rw [hh] at this
          exact absurd this (by decide)
      | cons c cs =>
          rw [List.cons_append, isPrefixOf_cons₂] at hp
          have hsplit := (Bool.and_eq_true _ _).mp hp
          have hc : h = c := eq_of_beq hsplit.1
          obtain ⟨u, hu⟩ := ih cs
            (fun d hd => hall d (List.mem_cons_of_mem _ hd)) hsplit.2
          exact ⟨u, by rw [hu, hc, List.cons_append]⟩

/-- The head surviving `dropWhile` fails the scanned predicate. -/
theorem dropWhile_head_false (p : Char → Bool) :
    ∀ (l : Str) (c : Char) (cs : Str), l.dropWhile p = c :: cs → p c = false := by
  intro l
  induction l with
  | nil => intro c cs h; cases h
  | cons a as ih =>
      intro c cs h
      rw [List.dropWhile_cons] at h
      by_cases hp : p a = true
      · rw [if_pos hp] at h
        exact ih c cs h
      · rw [if_neg hp] at h
        cases h
        exact Bool.eq_false_iff.mpr hp

/-- The specific matcher rejects a rendered token whose trimmed interior is a
different name. -/
theorem matchSpecAt_other_tok (hdr inner r : Str) (hh : isSimpleName hdr = true)
    (hbf : braceFree inner = true) (hne : ¬ trimWs inner = hdr) :
    matchSpecAt hdr ('{' :: '{' :: (inner ++ '}' :: '}' :: r)) = none := by
  have hs := (Bool.and_eq_true _ _).mp hh
  have hall : ∀ c ∈ hdr, simpleChar c = true := List.all_eq_true.mp hs.2
  have hbf' : ∀ c ∈ inner, braceFreeChar c = true := List.all_eq_true.mp hbf
  rw [matchSpecAt_cons₂, if_pos (by decide)]
  have hw1 : ∀ c ∈ inner.takeWhile isWsChar, isWsChar c = true :=
    fun c hc => List.mem_takeWhile_imp hc
  have hsplit : inner.takeWhile isWsChar ++ inner.dropWhile isWsChar = inner :=
    List.takeWhile_append_dropWhile isWsChar inner
  have hdrop : (inner ++ '}' :: '}' :: r).dropWhile isWsChar
      = ((inner.dropWhile isWsChar) ++ '}' :: '}' :: r).dropWhile isWsChar := by
    conv_lhs => rw [← hsplit]
    rw [List.append_assoc]
    exact dropWhile_ws_append _ _ hw1
  cases hcore : inner.dropWhile isWsChar with
  | nil =>
      rw [hdrop, hcore, List.nil_append,
        dropWhile_ws_head '}' _ (by decide)]
      cases hmm : hdr with
      | nil => subst hmm; exact absurd hh (by decide)
      | cons c cs =>
          subst hmm
          rw [if_neg]
          intro hp
          rw [isPrefixOf_cons₂] at hp
          have hsp := (Bool.and_eq_true _ _).mp hp
          have hc : c = '}' := eq_of_beq hsp.1
          have hch := hall c (List.mem_cons_self c cs)
          rw [hc] at hch
          exact absurd hch (by decide)
  | cons c cs =>
      have hcfirst : isWsChar c = false :=
        dropWhile_head_false isWsChar inner c cs hcore
      rw [hdrop, hcore, List.cons_append, dropWhile_ws_head c _ hcfirst,
        ← List.cons_append]
      by_cases hp : hdr.isPrefixOf ((c :: cs) ++ '}' :: '}' :: r) = true
      · rw [if_pos hp]
        obtain ⟨u, hu⟩ := prefix_simple_stops ('}' :: r) hdr (c :: cs) hall hp
        have hdrop2 : ((c :: cs : Str) ++ '}' :: '}' :: r).drop hdr.length
            = u ++ '}' :: '}' :: r := by
          rw [hu, List.append_assoc]
          exact List.drop_left hdr _
        rw [hdrop2]
        have humem : ∀ d ∈ u, d ∈ inner := by
          intro d hd
          have hdc : d ∈ (c :: cs : Str) := by
            rw [hu]; exact List.mem_append_right hdr hd
          rw [← hcore] at hdc
          exact (List.dropWhile_suffix isWsChar).subset hdc
        cases hud : u.dropWhile isWsChar with
        | nil =>
            exfalso
            have huws : ∀ d ∈ u, isWsChar d = true :=
              List.dropWhile_eq_nil_iff.mp hud
            have hinner : inner = inner.takeWhile isWsChar ++ hdr ++ u := by
              rw [List.append_assoc, ← hu, ← hcore, hsplit]
            exact hne (by rw [hinner]; exact trimWs_pad _ _ _ hh hw1 huws)
        | cons d ds =>
            have hdin : d ∈ u :=
              (List.dropWhile_suffix isWsChar).subset
                (by rw [hud]; exact List.mem_cons_self d ds)
            have hdbf : braceFreeChar d = true := hbf' d (humem d hdin)
            have hdne : (d = '}') = False := by
              refine eq_false ?_
              intro hcontra
              rw [hcontra] at hdbf
              exact absurd hdbf (by decide)
            rw [List.dropWhile_append, hud]
            simp only [List.isEmpty_cons, List.cons_append, if_false,
              Bool.false_eq_true]
            cases hds : ds ++ '}' :: '}' :: r with
            | nil =>
                exfalso
                have hlen := congrArg List.length hds
                simp at hlen
            | cons e es =>
                show (if d = '}' && e = '}' then some es else none) = none
                rw [if_neg]
                simp [hdne]
      · rw [if_neg hp]

/-- The literal scanner passes over a brace-free block
unchanged. -/
theorem replaceSpecLit_append_bracefree (hdr val : Str) :
    ∀ (s r : Str), braceFree s = true →
      replaceSpecLit hdr val (s ++ r) = s ++ replaceSpecLit hdr val r := by
  intro s
  induction s with
  | nil => intro r _; rfl
  | cons c cs ih =>
      intro r hbf
      have hbf' : ∀ d ∈ (c :: cs : Str), braceFreeChar d = true :=
        List.all_eq_true.mp hbf
      have hc : ¬ c = '{' := by
        intro hcontra
        have hd := hbf' c (List.mem_cons_self c cs)
        rw [hcontra] at hd
        exact absurd hd (by decide)
      rw [List.cons_append,
        replaceSpecLit_cons_nomatch hdr val c (cs ++ r)
          (matchSpecAt_not_open hdr c (cs ++ r) hc),
        ih r (by
          refine List.all_eq_true.mpr ?_
          exact fun d hd => hbf' d (List.mem_cons_of_mem _ hd)),
        List.cons_append]

/-- A rendered token followed by anything, in scanner-ready shape. -/
theorem renderPiece_tok_eq (inner r : Str) :
    renderPiece (Piece.tok inner) ++ r = '{' :: '{' :: (inner ++ '}' :: '}' :: r) := by
  simp [renderPiece, List.append_assoc]

/-- The literal scanner substitutes a leading specific token and
scans on behind it. -/
theorem replaceSpecLit_spec_tok (hdr val inner r : Str)
    (hh : isSimpleName hdr = true) (ht : trimWs inner = hdr) :
    replaceSpecLit hdr val ('{' :: '{' :: (inner ++ '}' :: '}' :: r))
      = val ++ replaceSpecLit hdr val r :=
  replaceSpecLit_cons_match hdr val '{' ('{' :: (inner ++ '}' :: '}' :: r)) r
    (matchSpecAt_spec_tok hdr inner r hh ht)

/-- The literal scanner keeps a leading token of a different
name intact and scans on behind it. -/
theorem replaceSpecLit_other_tok (hdr val inner r : Str)
    (hh : isSimpleName hdr = true) (hni : inner.isEmpty = false)
    (hbf : braceFree inner = true) (hne : ¬ trimWs inner = hdr) :
    replaceSpecLit hdr val ('{' :: '{' :: (inner ++ '}' :: '}' :: r))
      = '{' :: '{' :: (inner ++ '}' :: '}' :: replaceSpecLit hdr val r) := by
  rw [replaceSpecLit_cons_nomatch hdr val '{' ('{' :: (inner ++ '}' :: '}' :: r))
    (matchSpecAt_other_tok hdr inner r hh hbf hne)]
  cases hinner : inner with
  | nil => rw [hinner] at hni; exact absurd hni (by decide)
  | cons i0 is =>
      subst hinner
      have hbf' : ∀ d ∈ (i0 :: is : Str), braceFreeChar d = true :=
        List.all_eq_true.mp hbf
      have hi0 : ¬ i0 = '{' := by
        intro hcontra
        have hd := hbf' i0 (List.mem_cons_self i0 is)
        rw [hcontra] at hd
        exact absurd hd (by decide)
      rw [List.cons_append,
        replaceSpecLit_cons_nomatch hdr val '{' (i0 :: (is ++ '}' :: '}' :: r))
          (matchSpecAt_not_open₂ hdr '{' i0 (is ++ '}' :: '}' :: r) hi0),
        ← List.cons_append,
        replaceSpecLit_append_bracefree hdr val (i0 :: is) ('}' :: '}' :: r) hbf,
        replaceSpecLit_cons_nomatch hdr val '}' ('}' :: r)
          (matchSpecAt_not_open hdr '}' ('}' :: r) (by decide)),
        replaceSpecLit_cons_nomatch hdr val '}' r
          (matchSpecAt_not_open hdr '}' r (by decide))]

/-- The literal scanner on a rendered piece list is the rendering
of the piecewise substitution. -/
theorem replaceSpecLit_renderPieces (hdr val : Str) (hh : isSimpleName hdr = true) :
    ∀ ps : List Piece, (∀ p ∈ ps, wfPiece p = true) →
      replaceSpecLit hdr val (renderPieces ps)
        = renderPieces (ps.map (substPiece hdr val)) := by
  intro ps
  induction ps with
  | nil => intro _; rfl
  | cons p ps ih =>
      intro hwf
      have hwfp : wfPiece p = true := hwf p (List.mem_cons_self p ps)
      have hwfs : ∀ q ∈ ps, wfPiece q = true :=
        fun q hq => hwf q (List.mem_cons_of_mem _ hq)
      cases p with
      | plain s =>
          show replaceSpecLit hdr val (s ++ renderPieces ps)
            = s ++ renderPieces (ps.map (substPiece hdr val))
          rw [replaceSpecLit_append_bracefree hdr val s _ hwfp, ih hwfs]
      | tok inner =>
          have hsplit := (Bool.and_eq_true _ _).mp hwfp
          have hni : inner.isEmpty = false := by
            cases hie : inner.isEmpty
            · rfl
            · rw [hie] at hsplit
              exact absurd hsplit.1 (by decide)
          by_cases hti : trimWs inner = hdr
          · show replaceSpecLit hdr val (renderPiece (Piece.tok inner) ++ renderPieces ps)
              = renderPiece (substPiece hdr val (Piece.tok inner))
                  ++ renderPieces (ps.map (substPiece hdr val))
            rw [renderPiece_tok_eq,
              replaceSpecLit_spec_tok hdr val inner _ hh hti, ih hwfs]
            show val ++ renderPieces (ps.map (substPiece hdr val))
              = renderPiece (if trimWs inner = hdr then Piece.plain val
                  else Piece.tok inner) ++ renderPieces (ps.map (substPiece hdr val))
            rw [if_pos hti]
            rfl
          · show replaceSpecLit hdr val (renderPiece (Piece.tok inner) ++ renderPieces ps)
              = renderPiece (substPiece hdr val (Piece.tok inner))
                  ++ renderPieces (ps.map (substPiece hdr val))
            rw [renderPiece_tok_eq,
              replaceSpecLit_other_tok hdr val inner _ hh hni hsplit.2 hti, ih hwfs]
            show '{' :: '{' :: (inner ++ '}' :: '}'
                :: renderPieces (ps.map (substPiece hdr val)))
              = renderPiece (if trimWs inner = hdr then Piece.plain val
                  else Piece.tok inner) ++ renderPieces (ps.map (substPiece hdr val))
            rw [if_neg hti, renderPiece_tok_eq]

/-- Step equation of the `GetSubstitution` expansion on two or more
characters. -/
theorem expandRepl_cons₂ (matched before after : Str) (c d : Char) (rest : Str) :
    expandRepl matched before after (c :: d :: rest)
      = (if c = '$' then
          if d = '$' then '$' :: expandRepl matched before after rest
          else if d = '&' then matched ++ expandRepl matched before after rest
          else if d = Char.ofNat 96 then
            before ++ expandRepl matched before after rest
          else if d = Char.ofNat 39 then
            after ++ expandRepl matched before after rest
          else '$' :: d :: expandRepl matched before after rest
         else c :: expandRepl matched before after (d :: rest)) := rfl

/-- On a replacement string without a dollar sign, the `GetSubstitution`
expansion is the identity, whatever the match context. -/
theorem expandRepl_no_dollar (matched before after : Str) :
    ∀ val : Str, val.all (fun c => !(c = '$')) = true →
      expandRepl matched before after val = val := by
  intro val
  induction val with
  | nil => intro _; rfl
  | cons c rest ih =>
      intro h
      have hall := List.all_eq_true.mp h
      have hc : ¬ c = '$' := by
        intro hcontra
        have hcb := hall c (List.mem_cons_self c rest)
        rw [hcontra] at hcb
        exact absurd hcb (by decide)
      have hrest : rest.all (fun c => !(c = '$')) = true :=
        List.all_eq_true.mpr (fun d hd => hall d (List.mem_cons_of_mem _ hd))
      cases rest with
      | nil => rfl
      | cons d rest2 =>
          rw [expandRepl_cons₂, if_neg hc, ih hrest]

/-- The faithful scanner on the empty string. -/
theorem replaceSpecF_nil (hdr val : Str) (f : Nat) (seen : Str) :
    replaceSpecF hdr val f seen [] = [] := by
  cases f with
  | zero => rfl
  | succ g => rfl

/-- Step equation of the faithful scanner. -/
theorem replaceSpecF_cons (hdr val : Str) (f : Nat) (seen : Str) (c : Char)
    (rest : Str) :
    replaceSpecF hdr val (f + 1) seen (c :: rest)
      = (match matchSpecAt hdr (c :: rest) with
         | some r3 =>
             expandRepl ((c :: rest).take ((c :: rest).length - r3.length))
                 seen.reverse r3 val
               ++ replaceSpecF hdr val f
                 (((c :: rest).take ((c :: rest).length - r3.length)).reverse
                   ++ seen) r3
         | none => c :: replaceSpecF hdr val f (c :: seen) rest) := rfl

/-- For a dollar-free replacement value the faithful scanner coincides with
the literal scanner, whatever the accumulated context. -/
theorem replaceSpecF_no_dollar (hdr val : Str)
    (h : val.all (fun c => !(c = '$')) = true) :
    ∀ (f : Nat) (seen l : Str),
      replaceSpecF hdr val f seen l = replaceSpecLitF hdr val f l := by
  intro f
  induction f with
  | zero => intro seen l; rfl
  | succ g ih =>
      intro seen l
      cases l with
      | nil => rfl
      | cons c rest =>
          rw [replaceSpecF_cons, replaceSpecLitF_cons]
          cases hm : matchSpecAt hdr (c :: rest) with
          | some r3 =>
              show expandRepl ((c :: rest).take ((c :: rest).length - r3.length))
                    seen.reverse r3 val
                  ++ replaceSpecF hdr val g
                    (((c :: rest).take ((c :: rest).length - r3.length)).reverse
                      ++ seen) r3
                = val ++ replaceSpecLitF hdr val g r3
              rw [expandRepl_no_dollar _ _ _ val h, ih]
          | none =>
              show c :: replaceSpecF hdr val g (c :: seen) rest
                  = c :: replaceSpecLitF hdr val g rest
              rw [ih]

/-- For a dollar-free replacement value the global specific replacement is
the literal one. -/
theorem replaceSpec_no_dollar (hdr val l : Str)
    (h : val.all (fun c => !(c = '$')) = true) :
    replaceSpec hdr val l = replaceSpecLit hdr val l :=
  replaceSpecF_no_dollar hdr val h l.length [] l

/-- For a dollar-free replacement value, the global specific replacement on a
rendered piece list is the rendering of the piecewise literal substitution. -/
theorem replaceSpec_renderPieces (hdr val : Str) (hh : isSimpleName hdr = true)
    (hdol : val.all (fun c => !(c = '$')) = true)
    (ps : List Piece) (hwf : ∀ p ∈ ps, wfPiece p = true) :
    replaceSpec hdr val (renderPieces ps)
      = renderPieces (ps.map (substPiece hdr val)) := by
  rw [replaceSpec_no_dollar hdr val _ hdol]
  exact replaceSpecLit_renderPieces hdr val hh ps hwf

/-- A specific-token hit to the right survives a prefixed block. -/
theorem hasSpec_append_right (hdr : Str) :
    ∀ (s r : Str), hasSpec hdr r = true → hasSpec hdr (s ++ r) = true := by
  intro s
  induction s with
  | nil => intro r h; exact h
  | cons c cs ih =>
      intro r h
      rw [List.cons_append, hasSpec_cons, ih r h, Bool.or_true]

/-- A piece list holding a specific token renders to a string in which the
specific pattern matches. -/
theorem hasSpec_renderPieces (hdr : Str) (hh : isSimpleName hdr = true) :
    ∀ ps : List Piece, (∃ p ∈ ps, isSpecPiece hdr p = true) →
      hasSpec hdr (renderPieces ps) = true := by
  intro ps
  induction ps with
  | nil =>
      intro hex
      obtain ⟨q, hq, _⟩ := hex
      cases hq
  | cons p ps ih =>
      intro hex
      obtain ⟨q, hq, hqs⟩ := hex
      rcases List.mem_cons.mp hq with hqp | hqm
      · subst hqp
        cases q with
        | plain s => exact absurd hqs (by simp [isSpecPiece])
        | tok inner =>
            have hti : trimWs inner = hdr := of_decide_eq_true hqs
            show hasSpec hdr (renderPiece (Piece.tok inner) ++ renderPieces ps) = true
            rw [renderPiece_tok_eq, hasSpec_cons,
              matchSpecAt_spec_tok hdr inner _ hh hti]
            rfl
      · exact hasSpec_append_right hdr (renderPiece p) _ (ih ⟨q, hqm, hqs⟩)

/-- Step equation of the literal substring test. -/
theorem containsSub_cons (pat : Str) (c : Char) (rest : Str) :
    containsSub pat (c :: rest)
      = (pat.isPrefixOf (c :: rest) || containsSub pat rest) := rfl

/-- A nonempty string is a substring of itself followed by anything. -/
theorem containsSub_self_append (c : Char) (cs r : Str) :
    containsSub (c :: cs) ((c :: cs) ++ r) = true := by
  rw [List.cons_append, containsSub_cons, ← List.cons_append,
    isPrefixOf_self_append, Bool.true_or]

/-- A literal substring hit to the right survives a prefixed block. -/
theorem containsSub_append_right (pat : Str) :
    ∀ (s r : Str), containsSub pat r = true → containsSub pat (s ++ r) = true := by
  intro s
  induction s with
  | nil => intro r h; exact h
  | cons c cs ih =>
      intro r h
      rw [List.cons_append, containsSub_cons, ih r h, Bool.or_true]

/-- The rendering of a piece list contains every member token verbatim. -/
theorem containsSub_tok_of_mem (other : Str) :
    ∀ qs : List Piece, Piece.tok other ∈ qs →
      containsSub (renderPiece (Piece.tok other)) (renderPieces qs) = true := by
  intro qs
  induction qs with
  | nil => intro h; cases h
  | cons q qs ih =>
      intro h
      rcases List.mem_cons.mp h with hqp | hqm
      · rw [← hqp]
        exact containsSub_self_append '{' ('{' :: (other ++ ['}', '}']))
          (renderPieces qs)
      · show containsSub (renderPiece (Piece.tok other))
            (renderPiece q ++ renderPieces qs) = true
        exact containsSub_append_right _ (renderPiece q) _ (ih hqm)

/-- When the specific pattern matches the markup-preserving content, the text
mutator takes its first branch. -/
theorem textMutate_spec_branch (hdr val t : Str) (a : Attrs) (kids : List XNode)
    (h : hasSpec hdr (serializeNodes kids) = true) :
    textMutate hdr val t a kids
      = XNode.elem t a (parseNodes (replaceSpec hdr val (serializeNodes kids))) := by
  simp [textMutate, h]

/-- C2 counterexample: the row value is spliced into `String.replace` as the
replacement string, so its dollar escapes are processed.  For the row value
dollar-ampersand, `GetSubstitution` re-inserts the matched token text: the
content of an element holding only the specific token for the bound column
`price` is unchanged by the mutation, and in particular differs from the
piecewise substitution of the token by the literal row value. -/
theorem c2_dollar_counterexample :
    serializeNodes (kidsOfN (textMutate "price".toList ['$', '&']
        "text".toList [] [XNode.txt (renderPieces [Piece.tok "price".toList])]))
      = renderPieces [Piece.tok "price".toList]
    ∧ ¬ renderPieces [Piece.tok "price".toList]
        = renderPieces ([Piece.tok "price".toList].map
            (substPiece "price".toList ['$', '&'])) :=
  ⟨by decide, by decide⟩

/-- C2 (amended): placeholder resolution precedence in the text mutator, for
a row value free of dollar signs (on which the `GetSubstitution` expansion of
the replacement string is the identity).  When the markup-preserving content
of a text-bearing element renders a piece list that holds a specific token
for the bound plain column name `hdr` and a generic token for a different
plain name `other`, the mutation takes the specific-pattern branch: the new
children are the re-parse of the content with every specific token for `hdr`
(and nothing else) replaced by the row value, and the generic token for
`other` still occurs verbatim in that content. -/
theorem c2_specific_token_precedence
    (hdr other val t : Str) (a : Attrs) (kids : List XNode) (ps : List Piece)
    (hh : isSimpleName hdr = true) (ho : isSimpleName other = true)
    (hdol : val.all (fun c => !(c = '$')) = true)
    (hne : ¬ other = hdr)
    (hwf : ∀ p ∈ ps, wfPiece p = true)
    (hser : serializeNodes kids = renderPieces ps)
    (hspec : ∃ p ∈ ps, isSpecPiece hdr p = true)
    (hgen : Piece.tok other ∈ ps) :
    textMutate hdr val t a kids
        = XNode.elem t a
            (parseNodes (renderPieces (ps.map (substPiece hdr val))))
      ∧ containsSub (renderPiece (Piece.tok other))
          (renderPieces (ps.map (substPiece hdr val))) = true := by
  have hL1 : hasSpec hdr (serializeNodes kids) = true := by
    rw [hser]
    exact hasSpec_renderPieces hdr hh ps hspec
  have hfix : substPiece hdr val (Piece.tok other) = Piece.tok other := by
    show (if trimWs other = hdr then Piece.plain val else Piece.tok other)
      = Piece.tok other
    rw [trimWs_of_simple other ho, if_neg hne]
  constructor
  · rw [textMutate_spec_branch hdr val t a kids hL1, hser,
      replaceSpec_renderPieces hdr val hh hdol ps hwf]
  · exact containsSub_tok_of_mem other _
      (List.mem_map.mpr ⟨Piece.tok other, hgen, hfix⟩)

/-- Concrete piece list for the C2 witness: literal text, a padded specific
token for the column `price`, more literal text, and a generic token for the
unbound column `name`. -/
def c2ps : List Piece :=
  [Piece.plain "Cost: ".toList, Piece.tok " price ".toList,
   Piece.plain " - ".toList, Piece.tok "name".toList]

/-- Witness for C2 at a concrete element and piece list. -/
theorem c2_specific_token_precedence_witness :
    textMutate "price".toList "499".toList "text".toList []
        [XNode.txt (renderPieces c2ps)]
      = XNode.elem "text".toList []
          (parseNodes (renderPieces (c2ps.map
            (substPiece "price".toList "499".toList))))
    ∧ containsSub (renderPiece (Piece.tok "name".toList))
        (renderPieces (c2ps.map (substPiece "price".toList "499".toList)))
      = true :=
  c2_specific_token_precedence "price".toList "name".toList "499".toList
    "text".toList [] [XNode.txt (renderPieces c2ps)] c2ps
    (by decide) (by decide) (by decide) (by decide) (by decide)
    (by decide) (by decide) (by decide)

end SvgCat
